/-
Verification of the ErgoSum CLI context-repository core.

This file gives a shallow embedding, in Lean 4, of the git-like repository
manager of the ErgoSum CLI (repo-manager, the context-repo command layer and
the api-client commit sorting), and proves the specified properties about it.

Modelling conventions:
  * machine integers and JS numbers are Nat (all SHA-1 arithmetic is taken
    mod 2^32 explicitly);
  * `Date` values are Nat timestamps, passed explicitly to each operation
    that calls `new Date()`;
  * random identifiers (`crypto.randomUUID`, `crypto.randomBytes`) are
    explicit parameters;
  * the `.ergosum` directory is a record of its files; a flat object
    namespace (a directory of files keyed by file name) is an association
    list with replace-or-append writes;
  * file contents read with encoding utf8 are Lean `String`s, and hashing
    applies SHA-1 to their UTF-8 byte sequence, exactly as
    `crypto.createHash('sha1').update(string)` does;
  * remote HTTP calls always succeed and are recorded as a trace of
    `RemoteCall` events.
-/
import Mathlib

set_option maxRecDepth 100000

namespace ErgoSum

/-! ## SHA-1 (model of crypto.createHash('sha1') ... digest('hex')) -/

/-- Rotate a 32-bit word left by `n` bits (0 < n < 32). -/
def rotl32 (x n : Nat) : Nat :=
  ((x <<< n) ||| (x >>> (32 - n))) % 4294967296

/-- SHA-1 round function, selected by round index. -/
def sha1F (i b c d : Nat) : Nat :=
  if i < 20 then (b &&& c) ||| ((b ^^^ 4294967295) &&& d)
  else if i < 40 then b ^^^ c ^^^ d
  else if i < 60 then (b &&& c) ||| (b &&& d) ||| (c &&& d)
  else b ^^^ c ^^^ d

/-- SHA-1 round constants, selected by round index. -/
def sha1K (i : Nat) : Nat :=
  if i < 20 then 1518500249
  else if i < 40 then 1859775393
  else if i < 60 then 2400959708
  else 3395469782

/-- Extend the 16 schedule words to 80, kept in reverse order. -/
def sha1ExtendRev (rw : List Nat) : Nat → List Nat
  | 0 => rw
  | n + 1 =>
    let w := rotl32 ((rw.getD 2 0) ^^^ (rw.getD 7 0) ^^^ (rw.getD 13 0) ^^^ (rw.getD 15 0)) 1
    sha1ExtendRev (w :: rw) n

/-- Big-endian 4-byte groups to 32-bit words. -/
def bytesToWords : List Nat → List Nat
  | a :: b :: c :: d :: rest => (((a * 256 + b) * 256 + c) * 256 + d) :: bytesToWords rest
  | _ => []

/-- The five-word SHA-1 working state. -/
structure Sha1State where
  a : Nat
  b : Nat
  c : Nat
  d : Nat
  e : Nat
deriving DecidableEq

/-- One SHA-1 round: `iw` is the (round index, schedule word) pair. -/
def sha1Round (st : Sha1State) (iw : Nat × Nat) : Sha1State :=
  let temp := (rotl32 st.a 5 + sha1F iw.1 st.b st.c st.d + st.e + sha1K iw.1 + iw.2) % 4294967296
  { a := temp, b := st.a, c := rotl32 st.b 30, d := st.c, e := st.d }

/-- Compress one 64-byte block into the running state. -/
def sha1Block (h : Sha1State) (block : List Nat) : Sha1State :=
  let w16 := bytesToWords block
  let ws := (sha1ExtendRev w16.reverse 64).reverse
  let st := ((List.range 80).zip ws).foldl sha1Round h
  { a := (h.a + st.a) % 4294967296, b := (h.b + st.b) % 4294967296,
    c := (h.c + st.c) % 4294967296, d := (h.d + st.d) % 4294967296,
    e := (h.e + st.e) % 4294967296 }

/-- Append the 0x80 marker, zero padding, and the 64-bit big-endian bit length. -/
def sha1Pad (msg : List Nat) : List Nat :=
  let len := msg.length
  let zeros := (119 - (len % 64)) % 64
  let bitLen := len * 8
  msg ++ [128] ++ List.replicate zeros 0 ++
    [bitLen / 72057594037927936 % 256, bitLen / 281474976710656 % 256,
     bitLen / 1099511627776 % 256, bitLen / 4294967296 % 256,
     bitLen / 16777216 % 256, bitLen / 65536 % 256, bitLen / 256 % 256, bitLen % 256]

/-- Fold the compression function over 64-byte chunks.  The fuel argument is
only a structural-termination device; `sha1Hex` passes the list length, which
always suffices since every step removes 64 bytes of a non-empty list. -/
def sha1ChunksF : Nat → Sha1State → List Nat → Sha1State
  | _, h, [] => h
  | 0, h, _ => h
  | fuel + 1, h, l => sha1ChunksF fuel (sha1Block h (l.take 64)) (l.drop 64)

/-- SHA-1 initial state. -/
def sha1Init : Sha1State :=
  { a := 1732584193, b := 4023233417, c := 2562383102, d := 271733878, e := 3285377520 }

/-- Lower-case hex digit. -/
def hexChar (n : Nat) : Char := if n < 10 then Char.ofNat (48 + n) else Char.ofNat (87 + n)

/-- Eight hex digits of a 32-bit word, most significant first. -/
def wordHex (w : Nat) : List Char :=
  [hexChar (w / 268435456 % 16), hexChar (w / 16777216 % 16), hexChar (w / 1048576 % 16),
   hexChar (w / 65536 % 16), hexChar (w / 4096 % 16), hexChar (w / 256 % 16),
   hexChar (w / 16 % 16), hexChar (w % 16)]

/-- SHA-1 of a byte sequence, as a 40-character lower-case hex string. -/
def sha1Hex (msg : List Nat) : String :=
  let padded := sha1Pad msg
  let h := sha1ChunksF padded.length sha1Init padded
  String.mk (wordHex h.a ++ wordHex h.b ++ wordHex h.c ++ wordHex h.d ++ wordHex h.e)

/-- UTF-8 encoding of one character. -/
def utf8EncodeChar (ch : Char) : List Nat :=
  let n := ch.toNat
  if n < 128 then [n]
  else if n < 2048 then [192 + n / 64, 128 + n % 64]
  else if n < 65536 then [224 + n / 4096, 128 + n / 64 % 64, 128 + n % 64]
  else [240 + n / 262144, 128 + n / 4096 % 64, 128 + n / 64 % 64, 128 + n % 64]

/-- UTF-8 byte sequence of a string: what `hash.update(str)` digests in Node. -/
def utf8Bytes (s : String) : List Nat :=
  s.data.foldr (fun chr acc => utf8EncodeChar chr ++ acc) []

/-! ## String helpers (models of the JS string operations used by the source) -/

/-- Test whether `needle` occurs at the start of `hay` (character lists). -/
def charsLead : List Char → List Char → Bool
  | [], _ => true
  | _ :: _, [] => false
  | a :: as, b :: bs => a = b && charsLead as bs

/-- Model of JS `String.prototype.startsWith`. -/
def strStartsWith (s pre : String) : Bool := charsLead pre.data s.data

/-- Drop the first `n` characters of a string. -/
def strDrop (s : String) (n : Nat) : String := String.mk (s.data.drop n)

/-- Model of JS `String.prototype.includes` (substring containment). -/
def strContains (s sub : String) : Bool :=
  s.data.tails.any (fun t => charsLead sub.data t)

/-- String concatenation on the character-list representation (same as `++`). -/
def strConcat (a b : String) : String := String.mk (a.data ++ b.data)

/-- JS `String.prototype.length` counts UTF-16 code units. -/
def utf16Length (s : String) : Nat :=
  s.data.foldl (fun n chr => n + (if chr.toNat >= 65536 then 2 else 1)) 0

/-! ## Data model (src/types/index.ts) -/

/-- AI-integration block of the repository settings. -/
structure AIIntegrationSettings where
  generate_summaries : Bool
  optimize_for : String
deriving DecidableEq

/-- RepoSettings from src/types/index.ts. -/
structure RepoSettings where
  auto_embed : Bool
  max_file_size : Nat
  ignore_patterns : List String
  ai_integration : AIIntegrationSettings
deriving DecidableEq

/-- ContextRepo from src/types/index.ts (the config.json record). -/
structure ContextRepo where
  id : String
  name : String
  description : Option String
  owner_id : String
  remote_url : Option String
  default_branch : String
  created_at : Nat
  updated_at : Nat
  settings : RepoSettings
deriving DecidableEq

/-- Commit metadata block. -/
structure CommitMetadata where
  files_changed : Nat
  additions : Nat
  deletions : Nat
  embeddings_count : Option Nat
  ai_summary : Option String
deriving DecidableEq

/-- ContextCommit from src/types/index.ts. -/
structure ContextCommit where
  id : String
  repo_id : String
  message : String
  parent_id : Option String
  tree_id : String
  author : String
  timestamp : Nat
  metadata : CommitMetadata
deriving DecidableEq

/-- ContentObject from src/types/index.ts.  `content` is the utf8-decoded
text; embeddings (float vectors) are never produced on the modelled paths, so
the field only records presence. -/
structure ContentObject where
  id : String
  type : String
  content : String
  encoding : String
  size : Nat
  mime_type : Option String
  embedding : Option (List Int)
  created_at : Nat
deriving DecidableEq

/-- ContextBranch from src/types/index.ts. -/
structure ContextBranch where
  id : String
  repo_id : String
  name : String
  commit_id : String
  created_at : Nat
  updated_at : Nat
deriving DecidableEq

/-- TreeEntry from src/types/index.ts. -/
structure TreeEntry where
  mode : String
  name : String
  object_id : String
  type : String
deriving DecidableEq

/-- ContextTree from src/types/index.ts. -/
structure ContextTree where
  id : String
  entries : List TreeEntry
deriving DecidableEq

/-- IndexEntry (staging record) from src/types/index.ts. -/
structure IndexEntry where
  path : String
  object_id : String
  mode : String
  size : Nat
  modified_time : Nat
  staged : Bool
deriving DecidableEq

/-- InitOptions from src/types/index.ts (the fields init uses). -/
structure InitOptions where
  name : Option String
  description : Option String
  remote : Option String
deriving DecidableEq

/-- CommitOptions from src/types/index.ts (the fields commit uses). -/
structure CommitOptions where
  message : Option String
  ai_message : Bool
  author : Option String
deriving DecidableEq

/-! ## Flat keyed file stores

A namespace directory (objects/blobs, objects/trees, objects/commits,
refs/heads) is a set of files keyed by name.  Writing a file replaces the
entry with that name or creates it; reading looks the name up; readdir
enumerates entries in the (stable) list order. -/

/-- A directory of serialized records keyed by file name. -/
abbrev KVStore (α : Type) := List (String × α)

/-- Read the file named `k`. -/
def kvGet {α : Type} (s : KVStore α) (k : String) : Option α :=
  (s.find? (fun p => p.1 = k)).map (fun p => p.2)

/-- Write the file named `k`: replace an existing entry or append a new one. -/
def kvPut {α : Type} : KVStore α → String → α → KVStore α
  | [], k, v => [(k, v)]
  | (k', v') :: rest, k, v =>
    if k' = k then (k, v) :: rest else (k', v') :: kvPut rest k v

/-- The blob file written by `saveObject` (the object without its id, which
lives in the file name). -/
structure StoredObject where
  type : String
  content : String
  encoding : String
  size : Nat
  mime_type : Option String
  embedding : Option (List Int)
  created_at : Nat
deriving DecidableEq

/-- Contents of the `.ergosum` metadata directory. -/
structure ErgoDir where
  config : Option ContextRepo
  headFile : Option String
  branches : KVStore ContextBranch
  blobs : KVStore StoredObject
  trees : KVStore ContextTree
  commits : KVStore ContextCommit
  indexFile : Option (List IndexEntry)
  pushedCommits : List String
  pushedObjects : List String
  lastFetch : Option Nat
deriving DecidableEq

/-! ## RepositoryManager (src/lib/repo-manager.ts) -/

/-- getConfig: read config.json. -/
def getConfig (st : ErgoDir) : Option ContextRepo := st.config

/-- saveConfig: write config.json. -/
def saveConfig (st : ErgoDir) (repo : ContextRepo) : ErgoDir := { st with config := some repo }

/-- getHead: read the HEAD file, defaulting to branch main when absent. -/
def getHead (st : ErgoDir) : String := st.headFile.getD "main"

/-- setHead: write the HEAD file. -/
def setHead (st : ErgoDir) (ref : String) : ErgoDir := { st with headFile := some ref }

/-- Projection of a ContentObject to the data `saveObject` serializes. -/
def toStoredObject (obj : ContentObject) : StoredObject :=
  { type := obj.type, content := obj.content, encoding := obj.encoding, size := obj.size,
    mime_type := obj.mime_type, embedding := obj.embedding, created_at := obj.created_at }

/-- Reattach the file name as the id, as `getUnpushedObjects` does (the blob
file itself carries no id field). -/
def objFromStored (key : String) (so : StoredObject) : ContentObject :=
  { id := key, type := so.type, content := so.content, encoding := so.encoding, size := so.size,
    mime_type := so.mime_type, embedding := so.embedding, created_at := so.created_at }

/-- saveObject: write objects/blobs/(obj.id). -/
def saveObject (st : ErgoDir) (obj : ContentObject) : ErgoDir :=
  { st with blobs := kvPut st.blobs obj.id (toStoredObject obj) }

/-- getObject: read objects/blobs/(id), absent file giving null. -/
def getObject (st : ErgoDir) (id : String) : Option ContentObject :=
  (kvGet st.blobs id).map (objFromStored id)

/-- saveTree: write objects/trees/(tree.id). -/
def saveTree (st : ErgoDir) (tree : ContextTree) : ErgoDir :=
  { st with trees := kvPut st.trees tree.id tree }

/-- getTree: read objects/trees/(id). -/
def getTree (st : ErgoDir) (id : String) : Option ContextTree := kvGet st.trees id

/-- saveCommit: write objects/commits/(commit.id). -/
def saveCommit (st : ErgoDir) (commit : ContextCommit) : ErgoDir :=
  { st with commits := kvPut st.commits commit.id commit }

/-- getCommit: read objects/commits/(id). -/
def getCommit (st : ErgoDir) (id : String) : Option ContextCommit := kvGet st.commits id

/-- saveBranch: write refs/heads/(branch.name). -/
def saveBranch (st : ErgoDir) (branch : ContextBranch) : ErgoDir :=
  { st with branches := kvPut st.branches branch.name branch }

/-- getBranch: read refs/heads/(name). -/
def getBranch (st : ErgoDir) (name : String) : Option ContextBranch := kvGet st.branches name

/-- saveIndex: full replace of the index file. -/
def saveIndex (st : ErgoDir) (entries : List IndexEntry) : ErgoDir :=
  { st with indexFile := some entries }

/-- getIndex: read the index file, an absent file giving the empty list. -/
def getIndex (st : ErgoDir) : List IndexEntry := st.indexFile.getD []

/-- hashContent: sha1 hex digest of the content string's bytes. -/
def hashContent (content : String) : String := sha1Hex (utf8Bytes content)

/-- getDefaultSettings, verbatim from the source. -/
def getDefaultSettings : RepoSettings :=
  { auto_embed := true
    max_file_size := 10485760
    ignore_patterns :=
      [".git", ".ergosum", "node_modules", "*.log", ".env", ".env.local",
       "dist", "build", ".DS_Store"]
    ai_integration := { generate_summaries := true, optimize_for := "general" } }

/-- getMimeType: extension-keyed lookup with octet-stream default. -/
def getMimeType (ext : String) : String :=
  if ext = ".md" then "text/markdown"
  else if ext = ".txt" then "text/plain"
  else if ext = ".js" then "text/javascript"
  else if ext = ".ts" then "text/typescript"
  else if ext = ".json" then "application/json"
  else if ext = ".py" then "text/x-python"
  else if ext = ".html" then "text/html"
  else if ext = ".css" then "text/css"
  else "application/octet-stream"

/-- Final path segment of a slash-separated path. -/
def lastSegment (p : String) : List Char :=
  p.data.foldl (fun seg chr => if chr = '/' then [] else seg ++ [chr]) []

/-- Suffix starting at the last dot of a character list, if any. -/
def lastDotSuffix : List Char → Option (List Char)
  | [] => none
  | '.' :: rest =>
    match lastDotSuffix rest with
    | some r => some r
    | none => some ('.' :: rest)
  | _ :: rest => lastDotSuffix rest

/-- Model of path.extname restricted to what getMimeType needs: the suffix
from the final dot of the final path segment (empty for dotfiles). -/
def extname (p : String) : String :=
  match lastSegment p with
  | [] => ""
  | _ :: tl =>
    match lastDotSuffix tl with
    | some r => String.mk r
    | none => ""

/-- readFile: read a working-tree file (its utf8 text is `content`) and build
the content-addressed object. -/
def readFile (filePath content : String) (now : Nat) : ContentObject :=
  { id := hashContent content
    type := "file"
    content := content
    encoding := "utf8"
    size := utf16Length content
    mime_type := some (getMimeType (extname filePath))
    embedding := none
    created_at := now }

/-- Typed failures of the modelled operations (the source throws Errors with
these meanings). -/
inductive RepoFailure where
  | alreadyExists
  | nothingStaged
  | configMissing
  | notLinked
  | branchNotFound
deriving DecidableEq

instance {ε α : Type} [DecidableEq ε] [DecidableEq α] : DecidableEq (Except ε α) := fun x y => by
  cases x with
  | ok a =>
    cases y with
    | ok b => exact if h : a = b then isTrue (by rw [h]) else isFalse (by simp [h])
    | error f => exact isFalse (by simp)
  | error e =>
    cases y with
    | ok b => exact isFalse (by simp)
    | error f => exact if h : e = f then isTrue (by rw [h]) else isFalse (by simp [h])

/-- initRepository: fail on an existing repository BEFORE creating anything,
otherwise create the skeleton, the config, the main branch with empty
commit_id, HEAD, and an empty index.  `repoId`/`branchId` stand for the
randomUUID calls and `dirName` for path.basename of the working directory. -/
def initRepository (disk : Option ErgoDir) (options : InitOptions) (repoId branchId : String)
    (now : Nat) (dirName : String) : Option ErgoDir × Except RepoFailure ContextRepo :=
  match disk with
  | some st => (some st, Except.error RepoFailure.alreadyExists)
  | none =>
    let repo : ContextRepo :=
      { id := repoId, name := options.name.getD dirName, description := options.description,
        owner_id := "", remote_url := options.remote, default_branch := "main",
        created_at := now, updated_at := now, settings := getDefaultSettings }
    let mainBranch : ContextBranch :=
      { id := branchId, repo_id := repo.id, name := "main", commit_id := "",
        created_at := now, updated_at := now }
    let st0 : ErgoDir :=
      { config := none, headFile := none, branches := [], blobs := [], trees := [],
        commits := [], indexFile := none, pushedCommits := [], pushedObjects := [],
        lastFetch := none }
    let st1 := saveConfig st0 repo
    let st2 := saveBranch st1 mainBranch
    let st3 := setHead st2 "main"
    let st4 := saveIndex st3 []
    (some st4, Except.ok repo)

/-! ## Remote bookkeeping (repo-manager) -/

/-- The remote-url scheme written by setRemoteRepository. -/
def remoteScheme : String := "ergosum://repository/"

/-- getRemoteRepositoryId: parse the remote repository id out of remote_url. -/
def getRemoteRepositoryId (st : ErgoDir) : Option String :=
  match st.config with
  | none => none
  | some cfg =>
    match cfg.remote_url with
    | some u => if strStartsWith u remoteScheme then some (strDrop u 21) else none
    | none => none

/-- setRemoteRepository: rewrite config.remote_url (getConfig must succeed,
so a missing config leaves the state unchanged here and errors upstream). -/
def setRemoteRepository (st : ErgoDir) (remoteRepoId : String) : ErgoDir :=
  match st.config with
  | none => st
  | some cfg => saveConfig st { cfg with remote_url := some (strConcat remoteScheme remoteRepoId) }

/-- getUnpushedCommits: every commit in objects/commits whose id is not in the
pushed_commits tracking list, in directory order. -/
def getUnpushedCommits (st : ErgoDir) : List ContextCommit :=
  (st.commits.map (fun kv => kv.2)).filter (fun c => !(st.pushedCommits.contains c.id))

/-- getUnpushedObjects: every blob whose id (the file name) is not in the
pushed_objects tracking list. -/
def getUnpushedObjects (st : ErgoDir) : List ContentObject :=
  (st.blobs.map (fun kv => objFromStored kv.1 kv.2)).filter
    (fun o => !(st.pushedObjects.contains o.id))

/-- markCommitsPushed: append the ids to the pushed_commits tracking file. -/
def markCommitsPushed (st : ErgoDir) (commitIds : List String) : ErgoDir :=
  { st with pushedCommits := st.pushedCommits ++ commitIds }

/-- markObjectsPushed: append the ids to the pushed_objects tracking file. -/
def markObjectsPushed (st : ErgoDir) (objectIds : List String) : ErgoDir :=
  { st with pushedObjects := st.pushedObjects ++ objectIds }

/-- What the remote returns to fetch: commits, objects and branches. -/
structure RemoteData where
  commits : List ContextCommit
  objects : List ContentObject
  branches : List ContextBranch
deriving DecidableEq

/-- fetchFromRemote: require a linked remote, persist every fetched commit,
object and branch (branch refs overwritten wholesale), then stamp last_fetch. -/
def fetchFromRemote (st : ErgoDir) (remote : RemoteData) (now : Nat) :
    ErgoDir × Except RepoFailure RemoteData :=
  match getRemoteRepositoryId st with
  | none => (st, Except.error RepoFailure.notLinked)
  | some _ =>
    let st1 := remote.commits.foldl saveCommit st
    let st2 := remote.objects.foldl saveObject st1
    let st3 := remote.branches.foldl saveBranch st2
    ({ st3 with lastFetch := some now }, Except.ok remote)

/-- pullFromRemote: fetch, then compare the remote's branch pointer for the
current branch with the (pre-fetch) local one; force-set it on difference. -/
def pullFromRemote (st : ErgoDir) (remote : RemoteData) (now : Nat) :
    ErgoDir × Except RepoFailure (RemoteData × Bool) :=
  let currentBranch := getHead st
  match getBranch st currentBranch with
  | none => (st, Except.error RepoFailure.branchNotFound)
  | some branch =>
    match fetchFromRemote st remote now with
    | (st1, Except.error e) => (st1, Except.error e)
    | (st1, Except.ok fetchResult) =>
      match fetchResult.branches.find? (fun b => b.name = currentBranch) with
      | none => (st1, Except.ok (fetchResult, false))
      | some remoteBranch =>
        if remoteBranch.commit_id = "" then (st1, Except.ok (fetchResult, false))
        else if branch.commit_id = remoteBranch.commit_id then
          (st1, Except.ok (fetchResult, false))
        else
          let st2 := saveBranch st1
            { branch with commit_id := remoteBranch.commit_id, updated_at := now }
          (st2, Except.ok (fetchResult, true))

/-! ## Commit/commit-sort (src/commands/context-repo.ts and api-client.ts) -/

/-- generateTreeId: sha1 hex of the newline-joined `mode name object_id` lines. -/
def generateTreeId (entries : List TreeEntry) : String :=
  let content :=
    String.intercalate "\n" (entries.map (fun e => e.mode ++ " " ++ e.name ++ " " ++ e.object_id))
  sha1Hex (utf8Bytes content)

/-- createTreeFromIndex: one tree entry per staged index entry, in order. -/
def createTreeFromIndex (entries : List IndexEntry) : ContextTree :=
  let treeEntries := entries.map (fun entry =>
    ({ mode := entry.mode, name := entry.path, object_id := entry.object_id,
       type := "file" } : TreeEntry))
  { id := generateTreeId treeEntries, entries := treeEntries }

/-- generateAICommitMessage (the placeholder heuristic in the source). -/
def generateAICommitMessage (stagedFiles : List IndexEntry) : String :=
  let fileTypes := stagedFiles.map (fun f => extname f.path)
  if fileTypes.contains ".md" then "Update documentation"
  else if fileTypes.contains ".js" || fileTypes.contains ".ts" then "Update code"
  else "Add " ++ toString stagedFiles.length ++ " files"

/-- commitChanges: fail with nothingStaged on an empty staged set before any
write; otherwise build and save the tree, resolve the parent from the current
branch (empty commit_id meaning no parent), save the commit, advance the
branch when it exists, and rewrite the whole index with staged := false.
`newCommitId` stands for the randomBytes(20) hex id, `now` for new Date(). -/
def commitChanges (st : ErgoDir) (options : CommitOptions) (newCommitId : String) (now : Nat) :
    ErgoDir × Except RepoFailure ContextCommit :=
  let index := getIndex st
  let stagedFiles := index.filter (fun entry => entry.staged)
  if stagedFiles.isEmpty then (st, Except.error RepoFailure.nothingStaged)
  else
    let message :=
      match options.message with
      | some m => m
      | none =>
        if options.ai_message then generateAICommitMessage stagedFiles
        else "Add " ++ toString stagedFiles.length ++ " files"
    let tree := createTreeFromIndex stagedFiles
    let st1 := saveTree st tree
    let currentBranch := getHead st1
    let branch := getBranch st1 currentBranch
    let parentId :=
      match branch with
      | some b => if b.commit_id = "" then none else some b.commit_id
      | none => none
    match getConfig st1 with
    | none => (st1, Except.error RepoFailure.configMissing)
    | some cfg =>
      let commit : ContextCommit :=
        { id := newCommitId, repo_id := cfg.id, message := message, parent_id := parentId,
          tree_id := tree.id, author := options.author.getD "ErgoSum CLI User", timestamp := now,
          metadata :=
            { files_changed := stagedFiles.length,
              additions := stagedFiles.foldl (fun sum f => sum + f.size) 0,
              deletions := 0, embeddings_count := none, ai_summary := none } }
      let st2 := saveCommit st1 commit
      let st3 :=
        match branch with
        | some b => saveBranch st2 { b with commit_id := commit.id, updated_at := now }
        | none => st2
      let st4 := saveIndex st3 (index.map (fun entry => { entry with staged := false }))
      (st4, Except.ok commit)

/-! ## Staging (addFiles in context-repo.ts) -/

/-- Replace the first index entry with the same path, else append at the end
(findIndex-then-assign-or-push in the source). -/
def upsertIndexEntry : List IndexEntry → IndexEntry → List IndexEntry
  | [], e => [e]
  | x :: xs, e => if x.path = e.path then e :: xs else x :: upsertIndexEntry xs e

/-- One loop iteration of addFiles: read the file, save its content object,
upsert its index entry with staged := true. -/
def stageOne (acc : ErgoDir × List IndexEntry) (pc : String × String) (now : Nat) :
    ErgoDir × List IndexEntry :=
  let contentObj := readFile pc.1 pc.2 now
  let st1 := saveObject acc.1 contentObj
  let entry : IndexEntry :=
    { path := pc.1, object_id := contentObj.id, mode := "100644",
      size := contentObj.size, modified_time := now, staged := true }
  (st1, upsertIndexEntry acc.2 entry)

/-- addFiles over resolved (path, content) pairs: read the index once, stage
each file, save the updated index once. -/
def addFiles (st : ErgoDir) (files : List (String × String)) (now : Nat) : ErgoDir :=
  let stepped := files.foldl (fun acc pc => stageOne acc pc now) (st, getIndex st)
  saveIndex stepped.1 stepped.2

/-! ## Commit dependency sort (api-client.ts) -/

/-- The JS Map built from `commits.map(c => [c.id, c])`: on duplicate ids the
last entry wins, so lookup finds the last commit with the given id. -/
def mapGet (commits : List ContextCommit) (x : String) : Option ContextCommit :=
  commits.reverse.find? (fun c => c.id = x)

/-- commitMap.has. -/
def isKey (commits : List ContextCommit) (x : String) : Bool := (mapGet commits x).isSome

/-- The recursive `visit` of sortCommitsByDependencies: mark the id visited,
visit the parent first when it is a (truthy) key, then append the commit.
The fuel argument is a structural-termination device only; each recursive
call happens with a fresh unvisited key added to `v`, so the initial fuel
`commits.length + 1` supplied below can never run out. -/
def visit (commits : List ContextCommit) :
    Nat → List String → List ContextCommit → String → List String × List ContextCommit
  | 0, v, s, _ => (v, s)
  | fuel + 1, v, s, id =>
    if v.contains id then (v, s)
    else
      match mapGet commits id with
      | none => (id :: v, s)
      | some c =>
        match c.parent_id with
        | none => (id :: v, s ++ [c])
        | some p =>
          if p = "" then (id :: v, s ++ [c])
          else if isKey commits p then
            let r := visit commits fuel (id :: v) s p
            (r.1, r.2 ++ [c])
          else (id :: v, s ++ [c])

/-- sortCommitsByDependencies: depth-first walk over parent_id edges. -/
def sortCommitsByDependencies (commits : List ContextCommit) : List ContextCommit :=
  (commits.foldl (fun acc c => visit commits (commits.length + 1) acc.1 acc.2 c.id)
    (([] : List String), ([] : List ContextCommit))).2

/-! ## Push (pushRepository in context-repo.ts, remote calls as a trace) -/

/-- One remote API call made during push.  pushCommits records the list as
sorted inside the api-client before transmission. -/
inductive RemoteCall where
  | createRepository : RemoteCall
  | pushObjects (objects : List ContentObject) : RemoteCall
  | pushCommits (sorted : List ContextCommit) : RemoteCall
deriving DecidableEq

/-- The structured success result printed by pushRepository. -/
structure PushOutcome where
  trace : List RemoteCall
  commitsPushed : Nat
  objectsPushed : Nat
  upToDate : Bool
deriving DecidableEq

/-- The body of pushRepository after remote linking: compute both unpushed
deltas, stop with zero counts when both are empty, otherwise push objects
first (marking them), then commits (sorted, marking them). -/
def pushCore (st : ErgoDir) (pre : List RemoteCall) : ErgoDir × Except RepoFailure PushOutcome :=
  let unpushedCommits := getUnpushedCommits st
  let unpushedObjects := getUnpushedObjects st
  if unpushedCommits.isEmpty && unpushedObjects.isEmpty then
    (st, Except.ok { trace := pre, commitsPushed := 0, objectsPushed := 0, upToDate := true })
  else
    let stepObjects :=
      if unpushedObjects.isEmpty then (st, ([] : List RemoteCall))
      else (markObjectsPushed st (unpushedObjects.map (fun o => o.id)),
            [RemoteCall.pushObjects unpushedObjects])
    let stepCommits :=
      if unpushedCommits.isEmpty then (stepObjects.1, ([] : List RemoteCall))
      else (markCommitsPushed stepObjects.1 (unpushedCommits.map (fun c => c.id)),
            [RemoteCall.pushCommits (sortCommitsByDependencies unpushedCommits)])
    (stepCommits.1,
     Except.ok { trace := pre ++ stepObjects.2 ++ stepCommits.2,
                 commitsPushed := unpushedCommits.length,
                 objectsPushed := unpushedObjects.length, upToDate := false })

/-- pushRepository: create and link a remote repository when none is linked
yet, then run the push body.  `newRemoteId` stands for the id the remote
assigns on creation. -/
def pushRepository (st : ErgoDir) (newRemoteId : String) :
    ErgoDir × Except RepoFailure PushOutcome :=
  match getRemoteRepositoryId st with
  | some _ => pushCore st []
  | none =>
    match st.config with
    | none => (st, Except.error RepoFailure.notLinked)
    | some _ => pushCore (setRemoteRepository st newRemoteId) [RemoteCall.createRepository]

/-! ## File walker (listFiles / shouldIgnore)

shouldIgnore converts a pattern containing `*` to a JS RegExp by replacing
every `*` with `.*` and testing it unanchored; a pattern without `*` matches
by substring containment.  The tiny matcher below covers exactly the regexes
that substitution can produce: literals, `.` (any char), and starred atoms. -/

/-- A regex atom: any-char dot or a literal character. -/
inductive RAtom where
  | anyChar : RAtom
  | lit (c : Char) : RAtom
deriving DecidableEq

/-- Does an atom match one character. -/
def atomMatch : RAtom → Char → Bool
  | RAtom.anyChar, _ => true
  | RAtom.lit c, ch => c = ch

/-- Parse a converted pattern into (atom, starred) pairs; `*` quantifies the
preceding atom, and `.` outside a star is an any-char atom. -/
def parseAtoms : List Char → List (RAtom × Bool)
  | [] => []
  | c :: '*' :: rest =>
    ((if c = '.' then RAtom.anyChar else RAtom.lit c), true) :: parseAtoms rest
  | c :: rest =>
    ((if c = '.' then RAtom.anyChar else RAtom.lit c), false) :: parseAtoms rest

/-- Anchored regex match at the start of `s`.  Fuel is a structural
termination device; every recursion shrinks tokens + input, so the bound
passed by `regexTest` suffices. -/
def matchHere : Nat → List (RAtom × Bool) → List Char → Bool
  | 0, _, _ => false
  | _ + 1, [], _ => true
  | _ + 1, (_, false) :: _, [] => false
  | fuel + 1, (a, false) :: rest, ch :: s => atomMatch a ch && matchHere fuel rest s
  | fuel + 1, (a, true) :: rest, s =>
    matchHere fuel rest s ||
    (match s with
     | [] => false
     | ch :: s2 => atomMatch a ch && matchHere fuel ((a, true) :: rest) s2)

/-- Unanchored RegExp.test: try an anchored match at every position. -/
def regexTest (toks : List (RAtom × Bool)) (s : List Char) : Bool :=
  s.tails.any (fun suf => matchHere (s.length + toks.length + 1) toks suf)

/-- The `pattern.replace(/\x2a/g, '.*')` substitution on characters. -/
def globToRegexChars (pattern : String) : List Char :=
  pattern.data.foldr (fun chr acc => if chr = '*' then '.' :: '*' :: acc else chr :: acc) []

/-- shouldIgnore: always evaluates the BUILT-IN default ignore patterns (the
source reads getDefaultSettings() with the comment "In real implementation,
get from saved config"), never the repository's saved settings — the `st`
argument is deliberately unused. -/
def shouldIgnore (st : ErgoDir) (filePath : String) : Bool :=
  let _ := st
  let config := getDefaultSettings
  config.ignore_patterns.any (fun pattern =>
    if strContains pattern "*" then regexTest (parseAtoms (globToRegexChars pattern)) filePath.data
    else strContains filePath pattern)

/-- A working-directory listing in readdir order, encoded first-entry /
rest-of-directory so that recursion is structural: `file name rest`,
`dir name children rest`. -/
inductive FsEntries where
  | nil : FsEntries
  | file (name : String) (rest : FsEntries) : FsEntries
  | dir (name : String) (children : FsEntries) (rest : FsEntries) : FsEntries
deriving DecidableEq

/-- path.join of a relative directory and an entry name. -/
def joinPath (rel name : String) : String := if rel = "" then name else rel ++ "/" ++ name

/-- The traverse closure of listFiles: skip ignored entries (directories are
pruned whole), recurse into directories, collect files. -/
def walkEntries (st : ErgoDir) (rel : String) : FsEntries → List String
  | FsEntries.nil => []
  | FsEntries.file name rest =>
    let entryPath := joinPath rel name
    (if shouldIgnore st entryPath then [] else [entryPath]) ++ walkEntries st rel rest
  | FsEntries.dir name children rest =>
    let entryPath := joinPath rel name
    (if shouldIgnore st entryPath then [] else walkEntries st entryPath children) ++
      walkEntries st rel rest

/-- listFiles: walk the working tree from the repository root. -/
def listFiles (st : ErgoDir) (tree : FsEntries) : List String := walkEntries st "" tree

/-! ## Specification predicates -/

/-- The ids of a commit list. -/
def idsOf (l : List ContextCommit) : List String := l.map (fun c => c.id)

/-- How many distinct-key occurrences of the map's key list are not yet
visited: the measure showing the dependency walk never exhausts its fuel. -/
def unvisitedKeyCount (commits : List ContextCommit) (v : List String) : Nat :=
  ((commits.map (fun c => c.id)).filter (fun x => decide (¬ x ∈ v))).length

/-- Parent-before-child order relative to the key set of `commits`: whenever a
listed commit's parent is a key, some commit with the parent's id occurs
strictly earlier. -/
def OrderedWrt (commits cs : List ContextCommit) : Prop :=
  ∀ l1 c l2, cs = l1 ++ c :: l2 → ∀ p, c.parent_id = some p → isKey commits p = true →
    ∃ pc, pc ∈ l1 ∧ pc.id = p

/-- Parent-before-child order of a sent commit list, phrased on the list
itself: a commit whose parent is also being pushed comes after that parent. -/
def ParentBeforeChild (cs : List ContextCommit) : Prop :=
  ∀ l1 c l2, cs = l1 ++ c :: l2 → ∀ p, c.parent_id = some p → (∃ d, d ∈ cs ∧ d.id = p) →
    ∃ pc, pc ∈ l1 ∧ pc.id = p

/-- True when the call is not a pushObjects call. -/
def notPushObjectsCall : RemoteCall → Bool
  | RemoteCall.pushObjects _ => false
  | _ => true

/-- All pushObjects calls of the trace precede every pushCommits call. -/
def objectsBeforeCommits : List RemoteCall → Bool
  | [] => true
  | RemoteCall.pushCommits _ :: rest => rest.all notPushObjectsCall && objectsBeforeCommits rest
  | _ :: rest => objectsBeforeCommits rest

/-- Extract the ok value of an Except, with a fallback. -/
def exceptGetD {ε α : Type} (x : Except ε α) (d : α) : α :=
  match x with
  | Except.ok a => a
  | Except.error _ => d

/-! ## Concrete fixtures used by witnesses and counterexamples -/

/-- An empty `.ergosum` directory record. -/
def emptyDir : ErgoDir :=
  { config := none, headFile := none, branches := [], blobs := [], trees := [],
    commits := [], indexFile := none, pushedCommits := [], pushedObjects := [],
    lastFetch := none }

/-- A small repository config, optionally linked to a remote. -/
def fxRepo (ru : Option String) : ContextRepo :=
  { id := "repo1", name := "repo", description := none, owner_id := "", remote_url := ru,
    default_branch := "main", created_at := 0, updated_at := 0,
    settings := getDefaultSettings }

/-- A branch named main pointing at `cid`. -/
def fxBranch (cid : String) (upd : Nat) : ContextBranch :=
  { id := "br1", repo_id := "repo1", name := "main", commit_id := cid,
    created_at := 0, updated_at := upd }

/-- Small commit metadata. -/
def fxMeta : CommitMetadata :=
  { files_changed := 1, additions := 1, deletions := 0, embeddings_count := none,
    ai_summary := none }

/-- A commit with the given id and parent. -/
def fxCommit (cid : String) (par : Option String) : ContextCommit :=
  { id := cid, repo_id := "repo1", message := "msg", parent_id := par, tree_id := "tree1",
    author := "au", timestamp := 0, metadata := fxMeta }

/-- A stored blob file. -/
def fxStored : StoredObject :=
  { type := "file", content := "x", encoding := "utf8", size := 1, mime_type := none,
    embedding := none, created_at := 0 }

/-- An index entry for a.txt, staged or not. -/
def fxEntry (staged : Bool) : IndexEntry :=
  { path := "a.txt", object_id := "oid1", mode := "100644", size := 1, modified_time := 0,
    staged := staged }

/-- Fallback commit for exceptGetD. -/
def anyCommit : ContextCommit := fxCommit "z" none

/-- Fallback outcome for exceptGetD. -/
def anyPush : PushOutcome := { trace := [], commitsPushed := 0, objectsPushed := 0, upToDate := true }

/-- A linked repository holding one blob and a child-before-parent pair of
commits in store order, nothing pushed yet. -/
def pushFixture : ErgoDir :=
  { emptyDir with
      config := some (fxRepo (some "ergosum://repository/R"))
      headFile := some "main"
      branches := [("main", fxBranch "c2" 0)]
      blobs := [("ob1", fxStored)]
      commits := [("c2", fxCommit "c2" (some "c1")), ("c1", fxCommit "c1" none)] }

/-- A rank function witnessing that pushFixture's commit graph is acyclic. -/
def pushRank : String → Nat := fun s => if s = "c2" then 1 else 0

/-- State after the first push of pushFixture. -/
def pushFixture1 : ErgoDir := (pushRepository pushFixture "N").1

/-- Outcome of the first push of pushFixture. -/
def pushOut1 : PushOutcome := exceptGetD (pushRepository pushFixture "N").2 anyPush

/-- Repository ready for a first commit: main branch with empty commit_id and
one staged index entry. -/
def commitFixture : ErgoDir :=
  { emptyDir with
      config := some (fxRepo none)
      headFile := some "main"
      branches := [("main", fxBranch "" 0)]
      indexFile := some [fxEntry true] }

/-- Plain commit options with an explicit message. -/
def commitOpts : CommitOptions := { message := some "m", ai_message := false, author := none }

/-- State after the first commit of commitFixture. -/
def cmFix1 : ErgoDir := (commitChanges commitFixture commitOpts "cc1" 1).1

/-- The first commit of commitFixture. -/
def cmCommit1 : ContextCommit := exceptGetD (commitChanges commitFixture commitOpts "cc1" 1).2 anyCommit

/-- cmFix1 with a freshly staged index again. -/
def cmFix1b : ErgoDir := saveIndex cmFix1 [fxEntry true]

/-- State after the second commit. -/
def cmFix2 : ErgoDir := (commitChanges cmFix1b commitOpts "cc2" 2).1

/-- The second commit. -/
def cmCommit2 : ContextCommit := exceptGetD (commitChanges cmFix1b commitOpts "cc2" 2).2 anyCommit

/-- Repository whose HEAD names a branch with no saved record. -/
def orphanFixture : ErgoDir :=
  { emptyDir with
      config := some (fxRepo none)
      headFile := some "dev"
      branches := []
      indexFile := some [fxEntry true] }

/-- State after committing on the missing branch. -/
def orFix1 : ErgoDir := (commitChanges orphanFixture commitOpts "oc1" 3).1

/-- The commit made on the missing branch. -/
def orCommit1 : ContextCommit := exceptGetD (commitChanges orphanFixture commitOpts "oc1" 3).2 anyCommit

/-- Repository with an index whose entries are all unstaged. -/
def noStagedFixture : ErgoDir :=
  { emptyDir with
      config := some (fxRepo none)
      headFile := some "main"
      branches := [("main", fxBranch "" 0)]
      indexFile := some [fxEntry false] }

/-- Local branch record before pull: commit c1, updated_at 0. -/
def pullLocalBranch : ContextBranch := fxBranch "c1" 0

/-- Remote branch record: same commit c1 but different id and updated_at. -/
def pullRemoteBranch : ContextBranch :=
  { id := "rbr", repo_id := "repo1", name := "main", commit_id := "c1",
    created_at := 0, updated_at := 7 }

/-- Linked repository on branch main at commit c1. -/
def pullFixture : ErgoDir :=
  { emptyDir with
      config := some (fxRepo (some "ergosum://repository/R"))
      headFile := some "main"
      branches := [("main", pullLocalBranch)] }

/-- Remote data reporting main at the same commit with other fields changed. -/
def pullRemote : RemoteData :=
  { commits := [], objects := [], branches := [pullRemoteBranch] }

/-- Saved settings that would (if consulted) ignore README.md and nothing
else. -/
def oddSettings : RepoSettings :=
  { auto_embed := false, max_file_size := 1, ignore_patterns := ["README.md"],
    ai_integration := { generate_summaries := false, optimize_for := "gpt" } }

/-- Repository with the default saved settings. -/
def wtFixtureA : ErgoDir := { emptyDir with config := some (fxRepo none) }

/-- Repository with the odd saved settings. -/
def wtFixtureB : ErgoDir :=
  { emptyDir with config := some { fxRepo none with settings := oddSettings } }

/-- A two-file working tree. -/
def wtTree : FsEntries := FsEntries.file "README.md" (FsEntries.file ".env" FsEntries.nil)

/-! ## Theorems -/

/-- Known SHA-1 test vector, checking the embedding of the hash itself. -/
theorem sha1_vector_abc :
    sha1Hex (utf8Bytes "abc") = "a9993e364706816aba3e25717850c26c9cd0d89d" := by decide

/-- Known SHA-1 test vector for the empty message. -/
theorem sha1_vector_empty :
    sha1Hex (utf8Bytes "") = "da39a3ee5e6b4b0d3255bfef95601890afd80709" := by decide

/-- Spec sample check: given README.md, script.js, .env and
node_modules/package.js, exactly the first two survive the ignore filter. -/
theorem listFiles_ignore_sample (st : ErgoDir) :
    listFiles st
      (FsEntries.file "README.md"
        (FsEntries.file "script.js"
          (FsEntries.file ".env"
            (FsEntries.dir "node_modules" (FsEntries.file "package.js" FsEntries.nil)
              FsEntries.nil)))) = ["README.md", "script.js"] := rfl

/-- Reading a key just written returns the written value. -/
theorem kvGet_put_self {α : Type} (s : KVStore α) (k : String) (v : α) :
    kvGet (kvPut s k v) k = some v := by
  induction s with
  | nil => simp [kvPut, kvGet]
  | cons hd tl ih =>
    by_cases h : hd.1 = k
    · simp [kvPut, h, kvGet]
    · simp only [kvPut, if_neg h]
      rw [kvGet, List.find?_cons_of_neg _ (by simpa using h)]
      exact ih

/-- Writing one key leaves every other key's value unchanged. -/
theorem kvGet_put_of_ne {α : Type} (s : KVStore α) (k k' : String) (v : α) (h : k' ≠ k) :
    kvGet (kvPut s k v) k' = kvGet s k' := by
  have hkk : ¬ k = k' := fun hv => h hv.symm
  induction s with
  | nil => simp [kvPut, kvGet, hkk]
  | cons hd tl ih =>
    by_cases hh : hd.1 = k
    · have h2 : ¬ hd.1 = k' := by rw [hh]; exact hkk
      rw [kvPut, if_pos hh, kvGet, List.find?_cons_of_neg _ (by simpa using hkk),
        kvGet, List.find?_cons_of_neg _ (by simpa using h2)]
    · rw [kvPut, if_neg hh]
      by_cases hk : hd.1 = k'
      · rw [kvGet, List.find?_cons_of_pos _ (by simpa using hk),
          kvGet, List.find?_cons_of_pos _ (by simpa using hk)]
      · rw [kvGet, List.find?_cons_of_neg _ (by simpa using hk),
          kvGet, List.find?_cons_of_neg _ (by simpa using hk)]
        exact ih

/-- C1: for every file staged via readFile/saveObject, the stored
ContentObject's id equals the SHA-1 hex digest of the file's content bytes,
the object is stored under exactly that id, and two files with identical
content always receive the same id. -/
theorem C1_content_addressing (st : ErgoDir) (p1 p2 content : String) (t1 t2 : Nat) :
    (readFile p1 content t1).id = sha1Hex (utf8Bytes content) ∧
    kvGet (saveObject st (readFile p1 content t1)).blobs (readFile p1 content t1).id =
      some (toStoredObject (readFile p1 content t1)) ∧
    (readFile p1 content t1).id = (readFile p2 content t2).id := by
  refine ⟨rfl, ?_, rfl⟩
  exact kvGet_put_self st.blobs (readFile p1 content t1).id
    (toStoredObject (readFile p1 content t1))

/-- C7: the first init of an empty directory succeeds, and a second init on
the resulting repository fails with AlreadyExists leaving the on-disk state
exactly as the first init left it (the existence check precedes any write). -/
theorem C7_init_guard (o1 o2 : InitOptions) (r1 b1 r2 b2 : String) (t1 t2 : Nat)
    (d1 d2 : String) :
    (∃ repo, (initRepository none o1 r1 b1 t1 d1).2 = Except.ok repo) ∧
    initRepository (initRepository none o1 r1 b1 t1 d1).1 o2 r2 b2 t2 d2 =
      ((initRepository none o1 r1 b1 t1 d1).1, Except.error RepoFailure.alreadyExists) :=
  ⟨⟨_, rfl⟩, rfl⟩

/-- C4: when no index entry is staged, commit fails with NothingStaged and
returns the repository state unchanged: no commit is written, no branch
moves, and the index is not rewritten. -/
theorem C4_nothing_staged (st : ErgoDir) (options : CommitOptions) (cid : String) (now : Nat)
    (h : (getIndex st).filter (fun e => e.staged) = []) :
    commitChanges st options cid now = (st, Except.error RepoFailure.nothingStaged) := by
  simp [commitChanges, h]

/-- Witness for C4 at a concrete repository whose only index entry is
unstaged. -/
theorem C4_nothing_staged_witness :
    commitChanges noStagedFixture commitOpts "cid" 5 =
      (noStagedFixture, Except.error RepoFailure.nothingStaged) :=
  C4_nothing_staged noStagedFixture commitOpts "cid" 5 (by decide)

/-- The upserted entry is what a lookup by its path finds afterwards. -/
theorem upsert_find_self (idx : List IndexEntry) (e : IndexEntry) (p : String)
    (hp : e.path = p) :
    (upsertIndexEntry idx e).find? (fun x => x.path = p) = some e := by
  induction idx with
  | nil => simp [upsertIndexEntry, hp]
  | cons x xs ih =>
    by_cases h : x.path = e.path
    · simp [upsertIndexEntry, h, hp]
    · rw [upsertIndexEntry, if_neg h,
        List.find?_cons_of_neg _ (by simp [hp ▸ h]), ih]

/-- After an upsert, some entry with the upserted path is present. -/
theorem upsert_any_self (idx : List IndexEntry) (e : IndexEntry) (p : String)
    (hp : e.path = p) :
    (upsertIndexEntry idx e).any (fun x => x.path = p) = true := by
  induction idx with
  | nil => simp [upsertIndexEntry, hp]
  | cons x xs ih =>
    by_cases h : x.path = e.path
    · simp [upsertIndexEntry, h, hp]
    · simp [upsertIndexEntry, h, ih]

/-- Upserting a path that is already present replaces in place: the path
sequence of the index is unchanged (in particular no duplicate appears). -/
theorem upsert_paths_of_any (idx : List IndexEntry) (e : IndexEntry)
    (h : idx.any (fun x => x.path = e.path) = true) :
    (upsertIndexEntry idx e).map (fun x => x.path) = idx.map (fun x => x.path) := by
  induction idx with
  | nil => simp at h
  | cons x xs ih =>
    by_cases hx : x.path = e.path
    · simp [upsertIndexEntry, hx]
    · have h' : xs.any (fun y => y.path = e.path) = true := by
        simpa [List.any_cons, hx] using h
      simp [upsertIndexEntry, hx, ih h']

/-- Staging one (path, content) pair updates the index by exactly one upsert
of the entry built from the read file. -/
theorem getIndex_addFiles_single (st : ErgoDir) (p c : String) (t : Nat) :
    getIndex (addFiles st [(p, c)] t) =
      upsertIndexEntry (getIndex st)
        { path := p, object_id := hashContent c, mode := "100644", size := utf16Length c,
          modified_time := t, staged := true } := rfl

/-- C8 (amended): staging is keyed by path — re-adding a path replaces its
entry in place, leaving the index's path sequence unchanged — and re-adding
the same unchanged file yields the same entry in every field except
modified_time, which records the time of that staging call. -/
theorem C8_staging_upsert (st : ErgoDir) (p c : String) (t1 t2 : Nat) :
    ((getIndex (addFiles (addFiles st [(p, c)] t1) [(p, c)] t2)).map (fun x => x.path) =
      (getIndex (addFiles st [(p, c)] t1)).map (fun x => x.path)) ∧
    (getIndex (addFiles st [(p, c)] t1)).find? (fun x => x.path = p) =
      some { path := p, object_id := hashContent c, mode := "100644", size := utf16Length c,
             modified_time := t1, staged := true } ∧
    (getIndex (addFiles (addFiles st [(p, c)] t1) [(p, c)] t2)).find? (fun x => x.path = p) =
      some { path := p, object_id := hashContent c, mode := "100644", size := utf16Length c,
             modified_time := t2, staged := true } := by
  refine ⟨?_, ?_, ?_⟩
  · rw [getIndex_addFiles_single, getIndex_addFiles_single]
    exact upsert_paths_of_any _ _ (upsert_any_self _ _ _ rfl)
  · rw [getIndex_addFiles_single]
    exact upsert_find_self _ _ _ rfl
  · rw [getIndex_addFiles_single]
    exact upsert_find_self _ _ _ rfl

/-- Counterexample to C8 as stated: adding the same unchanged file at two
different times does NOT yield the same index entry both times (the entries
differ in modified_time). -/
theorem C8_counterexample :
    (getIndex (addFiles (addFiles emptyDir [("f.txt", "hello")] 0) [("f.txt", "hello")] 1)).find?
        (fun x => x.path = "f.txt") ≠
      (getIndex (addFiles emptyDir [("f.txt", "hello")] 0)).find?
        (fun x => x.path = "f.txt") := by
  decide

/-- The walker's output never depends on the repository state it is handed:
shouldIgnore reads only the built-in defaults. -/
theorem walkEntries_settings_irrelevant (st1 st2 : ErgoDir) (rel : String) (t : FsEntries) :
    walkEntries st1 rel t = walkEntries st2 rel t := by
  induction t generalizing rel with
  | nil => rfl
  | file name rest ih =>
    have hsi : shouldIgnore st1 (joinPath rel name) = shouldIgnore st2 (joinPath rel name) := rfl
    simp only [walkEntries, hsi, ih rel]
  | dir name children rest ihc ihr =>
    have hsi : shouldIgnore st1 (joinPath rel name) = shouldIgnore st2 (joinPath rel name) := rfl
    simp only [walkEntries, hsi, ihc (joinPath rel name), ihr rel]

/-- C10: listFiles ignore filtering does not depend on the repository's saved
settings: any two repositories with identical working trees produce identical
listings whatever their saved ignore_patterns, because shouldIgnore always
evaluates the built-in default pattern list. -/
theorem C10_listFiles_settings_independent (st1 st2 : ErgoDir) (t1 t2 : FsEntries)
    (h : t1 = t2) : listFiles st1 t1 = listFiles st2 t2 := by
  subst h
  exact walkEntries_settings_irrelevant st1 st2 "" t1

/-- Witness for C10: two concrete repositories whose saved ignore_patterns
differ (the second would ignore README.md if settings were consulted) list
the same files on the same working tree. -/
theorem C10_witness :
    (wtFixtureA.config.map (fun r => r.settings.ignore_patterns) ≠
      wtFixtureB.config.map (fun r => r.settings.ignore_patterns)) ∧
    listFiles wtFixtureA wtTree = listFiles wtFixtureB wtTree :=
  ⟨by decide, C10_listFiles_settings_independent wtFixtureA wtFixtureB wtTree wtTree rfl⟩

/-- Explicit success form of commitChanges: with a readable config and a
non-empty staged set, commit builds the tree from the staged entries, links
the parent from the current branch, saves the commit, advances the branch
when it exists, and unstages the whole index. -/
theorem commitChanges_success (st : ErgoDir) (o : CommitOptions) (cid : String) (now : Nat)
    (cfg : ContextRepo)
    (hcfg : getConfig st = some cfg)
    (hstg : (getIndex st).filter (fun e => e.staged) ≠ []) :
    commitChanges st o cid now =
      (let index := getIndex st
       let stagedFiles := index.filter (fun e => e.staged)
       let tree := createTreeFromIndex stagedFiles
       let branch := getBranch st (getHead st)
       let commit : ContextCommit :=
         { id := cid, repo_id := cfg.id,
           message :=
             match o.message with
             | some m => m
             | none =>
               if o.ai_message then generateAICommitMessage stagedFiles
               else "Add " ++ toString stagedFiles.length ++ " files",
           parent_id :=
             match branch with
             | some b => if b.commit_id = "" then none else some b.commit_id
             | none => none,
           tree_id := tree.id, author := o.author.getD "ErgoSum CLI User", timestamp := now,
           metadata :=
             { files_changed := stagedFiles.length,
               additions := stagedFiles.foldl (fun sum f => sum + f.size) 0,
               deletions := 0, embeddings_count := none, ai_summary := none } }
       let st2 := saveCommit (saveTree st tree) commit
       let st3 :=
         match branch with
         | some b => saveBranch st2 { b with commit_id := cid, updated_at := now }
         | none => st2
       (saveIndex st3 (index.map (fun e => { e with staged := false })), Except.ok commit)) := by
  have hne : ((getIndex st).filter (fun e => e.staged)).isEmpty = false :=
    List.isEmpty_eq_false.mpr hstg
  have hc : ∀ t, getConfig (saveTree st t) = some cfg := fun _ => hcfg
  have hh : ∀ t, getHead (saveTree st t) = getHead st := fun _ => rfl
  have hbfr : ∀ t n, getBranch (saveTree st t) n = getBranch st n := fun _ _ => rfl
  simp only [commitChanges, hne, hc, hh, hbfr, Bool.false_eq_true, if_false]

/-- saveIndex leaves the config file alone. -/
theorem getConfig_saveIndex (s : ErgoDir) (i : List IndexEntry) :
    getConfig (saveIndex s i) = getConfig s := rfl

/-- saveIndex leaves HEAD alone. -/
theorem getHead_saveIndex (s : ErgoDir) (i : List IndexEntry) :
    getHead (saveIndex s i) = getHead s := rfl

/-- saveIndex leaves the branch refs alone. -/
theorem getBranch_saveIndex (s : ErgoDir) (i : List IndexEntry) (n : String) :
    getBranch (saveIndex s i) n = getBranch s n := rfl

/-- Reading the index back after saveIndex gives the saved entries. -/
theorem getIndex_saveIndex (s : ErgoDir) (i : List IndexEntry) :
    getIndex (saveIndex s i) = i := rfl

/-- One successful commit on a state whose active branch record exists: the
commit id is the supplied one, the parent comes from the branch's commit_id
(empty meaning none), the branch file is rewritten to point at the new
commit, and config/HEAD are untouched while the index is unstaged wholesale. -/
theorem commit_step (st0 : ErgoDir) (b : ContextBranch) (o : CommitOptions) (cid : String)
    (t : Nat) (cfg : ContextRepo)
    (hcfg : getConfig st0 = some cfg)
    (hb : getBranch st0 (getHead st0) = some b)
    (hbn : b.name = getHead st0)
    (hstg : (getIndex st0).filter (fun e => e.staged) ≠ []) :
    ∃ c st', commitChanges st0 o cid t = (st', Except.ok c) ∧
      c.id = cid ∧
      c.parent_id = (if b.commit_id = "" then none else some b.commit_id) ∧
      getBranch st' (getHead st0) = some { b with commit_id := cid, updated_at := t } ∧
      getConfig st' = getConfig st0 ∧
      getHead st' = getHead st0 ∧
      getIndex st' = (getIndex st0).map (fun e => { e with staged := false }) := by
  rw [commitChanges_success st0 o cid t cfg hcfg hstg]
  simp only [hb]
  refine ⟨_, _, rfl, rfl, rfl, ?_, rfl, rfl, rfl⟩
  simp only [getBranch, saveIndex, saveBranch, saveCommit, saveTree]
  rw [hbn, kvGet_put_self]

/-- C3: starting from a state whose active branch exists with an empty
commit_id, the first commit has no parent and moves the branch to its id;
after restaging, the second commit's parent is the first commit's id and the
branch moves to the second commit's id. -/
theorem C3_branch_advancement (st : ErgoDir) (b : ContextBranch) (o1 o2 : CommitOptions)
    (cid1 cid2 : String) (t1 t2 : Nat) (idx2 : List IndexEntry) (cfg : ContextRepo)
    (hcfg : getConfig st = some cfg)
    (hb : getBranch st (getHead st) = some b)
    (hbn : b.name = getHead st)
    (hb0 : b.commit_id = "")
    (hcid1 : cid1 ≠ "")
    (hstg1 : (getIndex st).filter (fun e => e.staged) ≠ [])
    (hstg2 : idx2.filter (fun e => e.staged) ≠ []) :
    ∃ c1 st1, commitChanges st o1 cid1 t1 = (st1, Except.ok c1) ∧
      c1.parent_id = none ∧ c1.id = cid1 ∧
      (getBranch st1 (getHead st)).map (fun x => x.commit_id) = some c1.id ∧
      ∃ c2 st2, commitChanges (saveIndex st1 idx2) o2 cid2 t2 = (st2, Except.ok c2) ∧
        c2.parent_id = some c1.id ∧ c2.id = cid2 ∧
        (getBranch st2 (getHead st)).map (fun x => x.commit_id) = some c2.id := by
  obtain ⟨c1, st1, h1, hc1id, hc1par, hbr1, hcfg1, hhead1, _⟩ :=
    commit_step st b o1 cid1 t1 cfg hcfg hb hbn hstg1
  refine ⟨c1, st1, h1, ?_, hc1id, ?_, ?_⟩
  · rw [hc1par, hb0, if_pos rfl]
  · rw [hbr1, hc1id]
    rfl
  · have hcfg2 : getConfig (saveIndex st1 idx2) = some cfg := by
      rw [getConfig_saveIndex, hcfg1, hcfg]
    have hhead2 : getHead (saveIndex st1 idx2) = getHead st := by
      rw [getHead_saveIndex, hhead1]
    have hb2 : getBranch (saveIndex st1 idx2) (getHead (saveIndex st1 idx2)) =
        some { b with commit_id := cid1, updated_at := t1 } := by
      rw [getBranch_saveIndex, hhead2, hbr1]
    have hbn2 : ({ b with commit_id := cid1, updated_at := t1 } : ContextBranch).name =
        getHead (saveIndex st1 idx2) := by
      rw [hhead2]
      exact hbn
    have hstg2' : (getIndex (saveIndex st1 idx2)).filter (fun e => e.staged) ≠ [] := by
      rw [getIndex_saveIndex]
      exact hstg2
    obtain ⟨c2, st2, h2, hc2id, hc2par, hbr2, _, _, _⟩ :=
      commit_step (saveIndex st1 idx2) { b with commit_id := cid1, updated_at := t1 }
        o2 cid2 t2 cfg hcfg2 hb2 hbn2 hstg2'
    refine ⟨c2, st2, h2, ?_, hc2id, ?_⟩
    · rw [hc2par, hc1id]
      simp only [if_neg hcid1]
    · rw [hhead2] at hbr2
      rw [hbr2, hc2id]
      rfl

/-- Witness for C3 at the concrete commitFixture repository. -/
theorem C3_branch_advancement_witness :
    ∃ c1 st1, commitChanges commitFixture commitOpts "cc1" 1 = (st1, Except.ok c1) ∧
      c1.parent_id = none ∧ c1.id = "cc1" ∧
      (getBranch st1 (getHead commitFixture)).map (fun x => x.commit_id) = some c1.id ∧
      ∃ c2 st2, commitChanges (saveIndex st1 [fxEntry true]) commitOpts "cc2" 2 =
          (st2, Except.ok c2) ∧
        c2.parent_id = some c1.id ∧ c2.id = "cc2" ∧
        (getBranch st2 (getHead commitFixture)).map (fun x => x.commit_id) = some c2.id :=
  C3_branch_advancement commitFixture (fxBranch "" 0) commitOpts commitOpts "cc1" "cc2" 1 2
    [fxEntry true] (fxRepo none) (by decide) (by decide) (by decide) (by decide) (by decide)
    (by decide) (by decide)

/-- C9: when HEAD names a branch with no saved record, commit still succeeds:
the commit is persisted with an absent parent_id, no branch is created or
advanced, and the whole index is rewritten with staged := false. -/
theorem C9_commit_without_branch (st0 : ErgoDir) (o : CommitOptions) (cid : String)
    (t : Nat) (cfg : ContextRepo)
    (hcfg : getConfig st0 = some cfg)
    (hb : getBranch st0 (getHead st0) = none)
    (hstg : (getIndex st0).filter (fun e => e.staged) ≠ []) :
    ∃ c st', commitChanges st0 o cid t = (st', Except.ok c) ∧
      c.parent_id = none ∧ c.id = cid ∧
      st'.branches = st0.branches ∧
      getCommit st' cid = some c ∧
      getIndex st' = (getIndex st0).map (fun e => { e with staged := false }) := by
  rw [commitChanges_success st0 o cid t cfg hcfg hstg]
  simp only [hb]
  refine ⟨_, _, rfl, rfl, rfl, rfl, ?_, rfl⟩
  simp only [getCommit, saveIndex, saveCommit, saveTree]
  exact kvGet_put_self ..

/-- Witness for C9 at the concrete orphanFixture repository whose HEAD names
the unsaved branch dev. -/
theorem C9_commit_without_branch_witness :
    ∃ c st', commitChanges orphanFixture commitOpts "oc1" 3 = (st', Except.ok c) ∧
      c.parent_id = none ∧ c.id = "oc1" ∧
      st'.branches = orphanFixture.branches ∧
      getCommit st' "oc1" = some c ∧
      getIndex st' = (getIndex orphanFixture).map (fun e => { e with staged := false }) :=
  C9_commit_without_branch orphanFixture commitOpts "oc1" 3 (fxRepo none) (by decide)
    (by decide) (by decide)

/-- Persisting fetched commits does not touch the branch refs. -/
theorem branches_foldl_saveCommit (l : List ContextCommit) (s : ErgoDir) :
    (l.foldl saveCommit s).branches = s.branches := by
  induction l generalizing s with
  | nil => rfl
  | cons c rest ih =>
    rw [List.foldl_cons, ih]
    rfl

/-- Persisting fetched objects does not touch the branch refs. -/
theorem branches_foldl_saveObject (l : List ContentObject) (s : ErgoDir) :
    (l.foldl saveObject s).branches = s.branches := by
  induction l generalizing s with
  | nil => rfl
  | cons c rest ih =>
    rw [List.foldl_cons, ih]
    rfl

/-- After overwriting branch refs with a duplicate-free fetched list, a name
resolves to the fetched branch of that name when one exists, and to its old
value otherwise. -/
theorem getBranch_foldl_saveBranch (bs : List ContextBranch) (s : ErgoDir) (n : String)
    (hnd : (bs.map (fun x => x.name)).Nodup) :
    getBranch (bs.foldl saveBranch s) n =
      (match bs.find? (fun x => x.name = n) with
       | some rb => some rb
       | none => getBranch s n) := by
  induction bs generalizing s with
  | nil => simp
  | cons b rest ih =>
    have hside : (∀ x ∈ rest, ¬ x.name = b.name) ∧ (rest.map (fun x => x.name)).Nodup := by
      simpa [List.nodup_cons] using hnd
    rw [List.foldl_cons]
    by_cases hbn : b.name = n
    · have hfr : rest.find? (fun x => x.name = n) = none := by
        rw [List.find?_eq_none]
        intro x hx
        simp only [decide_eq_true_eq]
        intro hxn
        exact hside.1 x hx (by rw [hbn]; exact hxn)
      rw [ih _ hside.2, hfr, List.find?_cons_of_pos _ (by simpa using hbn)]
      show getBranch (saveBranch s b) n = some b
      simp only [getBranch, saveBranch]
      rw [hbn, kvGet_put_self]
    · rw [ih _ hside.2, List.find?_cons_of_neg _ (by simpa using hbn)]
      cases hfr : rest.find? (fun x => x.name = n) with
      | some rb => rfl
      | none =>
        show getBranch (saveBranch s b) n = getBranch s n
        simp only [getBranch, saveBranch]
        exact kvGet_put_of_ne _ _ _ _ (fun hv => hbn hv.symm)

/-- Counterexample to C6 as stated: pulling when the remote reports the same
commit_id still replaces the stored branch record during fetch, so the local
branch record (here its updated_at) changes even though updated=false. -/
theorem C6_counterexample :
    (pullFromRemote pullFixture pullRemote 9).2 = Except.ok (pullRemote, false) ∧
    getBranch (pullFromRemote pullFixture pullRemote 9).1 (getHead pullFixture) ≠
      getBranch pullFixture (getHead pullFixture) := by
  decide

/-- C6 (amended): when the remote's reported commit_id for the current branch
equals the local one, pull reports updated=false, performs no force-set of its
own beyond the fetch, and the branch's commit_id is unchanged — but the branch
record itself has been overwritten wholesale by the remote's record during
fetch, so its other fields (id, created_at, updated_at) may differ. -/
theorem C6_pull_noop_commit_id (st : ErgoDir) (remote : RemoteData) (now : Nat)
    (b rb : ContextBranch)
    (hlink : (getRemoteRepositoryId st).isSome = true)
    (hb : getBranch st (getHead st) = some b)
    (hfind : remote.branches.find? (fun x => x.name = getHead st) = some rb)
    (hnd : (remote.branches.map (fun x => x.name)).Nodup)
    (heq : rb.commit_id = b.commit_id) :
    pullFromRemote st remote now =
      ((fetchFromRemote st remote now).1, Except.ok (remote, false)) ∧
    (getBranch (pullFromRemote st remote now).1 (getHead st)).map (fun x => x.commit_id) =
      some b.commit_id := by
  obtain ⟨rid, hrid⟩ := Option.isSome_iff_exists.mp hlink
  have hfetch : fetchFromRemote st remote now =
      ({ remote.branches.foldl saveBranch
           (remote.objects.foldl saveObject (remote.commits.foldl saveCommit st)) with
         lastFetch := some now }, Except.ok remote) := by
    simp only [fetchFromRemote, hrid]
  have hpull : pullFromRemote st remote now =
      ((fetchFromRemote st remote now).1, Except.ok (remote, false)) := by
    rw [pullFromRemote, hb, hfetch]
    simp only [hfind]
    by_cases h0 : rb.commit_id = ""
    · rw [if_pos h0]
    · rw [if_neg h0, if_pos heq.symm]
  refine ⟨hpull, ?_⟩
  rw [hpull, hfetch]
  show (getBranch { remote.branches.foldl saveBranch
      (remote.objects.foldl saveObject (remote.commits.foldl saveCommit st)) with
      lastFetch := some now } (getHead st)).map (fun x => x.commit_id) = some b.commit_id
  have hsame : getBranch { remote.branches.foldl saveBranch
      (remote.objects.foldl saveObject (remote.commits.foldl saveCommit st)) with
      lastFetch := some now } (getHead st) =
      getBranch (remote.branches.foldl saveBranch
        (remote.objects.foldl saveObject (remote.commits.foldl saveCommit st))) (getHead st) := rfl
  rw [hsame, getBranch_foldl_saveBranch _ _ _ hnd, hfind, Option.map_some']
  rw [heq]

/-- Witness for the amended C6 at the concrete pullFixture repository. -/
theorem C6_pull_noop_commit_id_witness :
    pullFromRemote pullFixture pullRemote 9 =
      ((fetchFromRemote pullFixture pullRemote 9).1, Except.ok (pullRemote, false)) ∧
    (getBranch (pullFromRemote pullFixture pullRemote 9).1 (getHead pullFixture)).map
        (fun x => x.commit_id) = some pullLocalBranch.commit_id :=
  C6_pull_noop_commit_id pullFixture pullRemote 9 pullLocalBranch pullRemoteBranch
    (by decide) (by decide) (by decide) (by decide) (by decide)

/-- Bool contains agrees with list membership for strings. -/
theorem contains_iff_mem (l : List String) (a : String) : l.contains a = true ↔ a ∈ l :=
  List.elem_iff

/-- Marking exactly the unpushed commit ids empties the unpushed-commit
delta. -/
theorem unpushed_commits_marked_nil (st : ErgoDir) :
    getUnpushedCommits
      (markCommitsPushed st ((getUnpushedCommits st).map (fun c => c.id))) = [] := by
  unfold getUnpushedCommits
  rw [List.filter_eq_nil_iff]
  intro c hc hcon
  rw [Bool.not_eq_true'] at hcon
  have hcon2 : (st.pushedCommits ++
      ((st.commits.map (fun kv => kv.2)).filter
        (fun x => !(st.pushedCommits.contains x.id))).map (fun x => x.id)).contains c.id =
      false := hcon
  have hc2 : c ∈ st.commits.map (fun kv => kv.2) := hc
  have hmm : c.id ∈ st.pushedCommits ++
      ((st.commits.map (fun kv => kv.2)).filter
        (fun x => !(st.pushedCommits.contains x.id))).map (fun x => x.id) := by
    by_cases hp : st.pushedCommits.contains c.id = true
    · exact List.mem_append.mpr (Or.inl ((contains_iff_mem _ _).mp hp))
    · refine List.mem_append.mpr (Or.inr (List.mem_map_of_mem _ ?_))
      rw [List.mem_filter]
      refine ⟨hc2, ?_⟩
      show (!(st.pushedCommits.contains c.id)) = true
      cases hcc : st.pushedCommits.contains c.id with
      | true => exact absurd hcc hp
      | false => rfl
  rw [(contains_iff_mem _ _).mpr hmm] at hcon2
  exact absurd hcon2 (by decide)

/-- Marking exactly the unpushed object ids empties the unpushed-object
delta. -/
theorem unpushed_objects_marked_nil (st : ErgoDir) :
    getUnpushedObjects
      (markObjectsPushed st ((getUnpushedObjects st).map (fun o => o.id))) = [] := by
  unfold getUnpushedObjects
  rw [List.filter_eq_nil_iff]
  intro o ho hcon
  rw [Bool.not_eq_true'] at hcon
  have hcon2 : (st.pushedObjects ++
      ((st.blobs.map (fun kv => objFromStored kv.1 kv.2)).filter
        (fun x => !(st.pushedObjects.contains x.id))).map (fun x => x.id)).contains o.id =
      false := hcon
  have ho2 : o ∈ st.blobs.map (fun kv => objFromStored kv.1 kv.2) := ho
  have hmm : o.id ∈ st.pushedObjects ++
      ((st.blobs.map (fun kv => objFromStored kv.1 kv.2)).filter
        (fun x => !(st.pushedObjects.contains x.id))).map (fun x => x.id) := by
    by_cases hp : st.pushedObjects.contains o.id = true
    · exact List.mem_append.mpr (Or.inl ((contains_iff_mem _ _).mp hp))
    · refine List.mem_append.mpr (Or.inr (List.mem_map_of_mem _ ?_))
      rw [List.mem_filter]
      refine ⟨ho2, ?_⟩
      show (!(st.pushedObjects.contains o.id)) = true
      cases hoc : st.pushedObjects.contains o.id with
      | true => exact absurd hoc hp
      | false => rfl
  rw [(contains_iff_mem _ _).mpr hmm] at hcon2
  exact absurd hcon2 (by decide)

/-- After any run of the push body, both unpushed deltas are empty and the
remote link is unchanged. -/
theorem pushCore_state (s : ErgoDir) (pre : List RemoteCall) :
    getUnpushedCommits (pushCore s pre).1 = [] ∧
    getUnpushedObjects (pushCore s pre).1 = [] ∧
    getRemoteRepositoryId (pushCore s pre).1 = getRemoteRepositoryId s := by
  by_cases hC : (getUnpushedCommits s).isEmpty = true
  · by_cases hO : (getUnpushedObjects s).isEmpty = true
    · refine ⟨?_, ?_, ?_⟩ <;> simp [pushCore, hC, hO, List.isEmpty_iff.mp hC, List.isEmpty_iff.mp hO]
    · have h1 : (pushCore s pre).1 = markObjectsPushed s ((getUnpushedObjects s).map (fun o => o.id)) := by
        simp [pushCore, hC, hO]
      rw [h1]
      refine ⟨?_, unpushed_objects_marked_nil s, rfl⟩
      show getUnpushedCommits s = []
      exact List.isEmpty_iff.mp hC
  · by_cases hO : (getUnpushedObjects s).isEmpty = true
    · have h1 : (pushCore s pre).1 = markCommitsPushed s ((getUnpushedCommits s).map (fun c => c.id)) := by
        simp [pushCore, hC, hO]
      rw [h1]
      refine ⟨unpushed_commits_marked_nil s, ?_, rfl⟩
      show getUnpushedObjects s = []
      exact List.isEmpty_iff.mp hO
    · have h1 : (pushCore s pre).1 =
          markCommitsPushed (markObjectsPushed s ((getUnpushedObjects s).map (fun o => o.id)))
            ((getUnpushedCommits s).map (fun c => c.id)) := by
        simp [pushCore, hC, hO]
      rw [h1]
      refine ⟨?_, ?_, rfl⟩
      · have hfr : getUnpushedCommits s =
            getUnpushedCommits (markObjectsPushed s ((getUnpushedObjects s).map (fun o => o.id))) := rfl
        rw [hfr]
        exact unpushed_commits_marked_nil _
      · show getUnpushedObjects
          (markObjectsPushed s ((getUnpushedObjects s).map (fun o => o.id))) = []
        exact unpushed_objects_marked_nil s

/-- A push with nothing to send returns success with zero counts and no
remote calls, leaving the state untouched. -/
theorem pushCore_upToDate (s : ErgoDir)
    (hC : getUnpushedCommits s = []) (hO : getUnpushedObjects s = []) :
    pushCore s [] =
      (s, Except.ok { trace := [], commitsPushed := 0, objectsPushed := 0, upToDate := true }) := by
  simp [pushCore, hC, hO]

/-- With a config present, relinking records a remote id that parses back. -/
theorem getRemoteRepositoryId_setRemote (st : ErgoDir) (rid : String) (cfg : ContextRepo)
    (hcfg : st.config = some cfg) :
    getRemoteRepositoryId (setRemoteRepository st rid) = some rid := by
  have hlead : ∀ p q : List Char, charsLead p (p ++ q) = true := by
    intro p
    induction p with
    | nil => intro q; rfl
    | cons a as ih => intro q; simp [charsLead, ih]
  simp only [setRemoteRepository, hcfg, getRemoteRepositoryId, saveConfig]
  rw [if_pos]
  · show some (strDrop (strConcat remoteScheme rid) 21) = some rid
    rw [strDrop, strConcat]
    show some (String.mk ((remoteScheme.data ++ rid.data).drop 21)) = some rid
    rw [show (21 : Nat) = remoteScheme.data.length from rfl, List.drop_left]
  · show charsLead remoteScheme.data (strConcat remoteScheme rid).data = true
    rw [strConcat]
    exact hlead remoteScheme.data rid.data

/-- C5: after a successful push, re-invoking push with no new local commits
or objects sends nothing and reports success with zero pushed counts — every
id marked in the tracking sets is excluded from the next unpushed delta. -/
theorem C5_push_delta (st : ErgoDir) (rid rid2 : String) (st1 : ErgoDir) (out1 : PushOutcome)
    (h1 : pushRepository st rid = (st1, Except.ok out1)) :
    pushRepository st1 rid2 =
      (st1, Except.ok { trace := [], commitsPushed := 0, objectsPushed := 0, upToDate := true }) := by
  have hst1 : st1 = (pushRepository st rid).1 := by rw [h1]
  cases hlink : getRemoteRepositoryId st with
  | some r =>
    have hpr : pushRepository st rid = pushCore st [] := by
      simp [pushRepository, hlink]
    rw [hpr] at hst1
    obtain ⟨hc, ho, hrid⟩ := pushCore_state st []
    rw [hlink] at hrid
    rw [pushRepository, hst1, hrid]
    exact pushCore_upToDate _ (hst1 ▸ hc) (hst1 ▸ ho)
  | none =>
    cases hcfg : st.config with
    | none =>
      rw [pushRepository, hlink] at h1
      simp only [hcfg] at h1
      simp at h1
    | some cfg =>
      have hpr : pushRepository st rid =
          pushCore (setRemoteRepository st rid) [RemoteCall.createRepository] := by
        simp [pushRepository, hlink, hcfg]
      rw [hpr] at hst1
      obtain ⟨hc, ho, hrid⟩ := pushCore_state (setRemoteRepository st rid) [RemoteCall.createRepository]
      rw [getRemoteRepositoryId_setRemote st rid cfg hcfg] at hrid
      rw [pushRepository, hst1, hrid]
      exact pushCore_upToDate _ (hst1 ▸ hc) (hst1 ▸ ho)

/-- Witness for C5: a concrete first push of pushFixture followed by a second
push that reports zero counts. -/
theorem C5_push_delta_witness :
    pushRepository pushFixture1 "M" =
      (pushFixture1,
        Except.ok { trace := [], commitsPushed := 0, objectsPushed := 0, upToDate := true }) :=
  C5_push_delta pushFixture "N" "M" pushFixture1 pushOut1 (by decide)

/-- A map hit returns a commit bearing the looked-up id, drawn from the
list. -/
theorem mapGet_some_spec {commits : List ContextCommit} {x : String} {c : ContextCommit}
    (h : mapGet commits x = some c) : c.id = x ∧ c ∈ commits := by
  unfold mapGet at h
  constructor
  · simpa using List.find?_some h
  · simpa [List.mem_reverse] using List.mem_of_find?_eq_some h

/-- The id of any listed commit is a key of the map. -/
theorem isKey_of_mem {commits : List ContextCommit} {c : ContextCommit} (h : c ∈ commits) :
    isKey commits c.id = true := by
  unfold isKey mapGet
  rw [List.find?_isSome]
  exact ⟨c, List.mem_reverse.mpr h, by simp⟩

/-- When no commit has the empty id, the empty string is not a key. -/
theorem isKey_empty_false {commits : List ContextCommit}
    (hne : ∀ c ∈ commits, c.id ≠ "") : isKey commits "" = false := by
  unfold isKey mapGet
  cases hf : commits.reverse.find? (fun c => c.id = "") with
  | none => rfl
  | some c =>
    exact absurd (by simpa using List.find?_some hf)
      (hne c (List.mem_reverse.mp (List.mem_of_find?_eq_some hf)))

/-- idsOf distributes over append. -/
theorem idsOf_append (a b : List ContextCommit) : idsOf (a ++ b) = idsOf a ++ idsOf b :=
  List.map_append ..

/-- Membership in idsOf. -/
theorem mem_idsOf {l : List ContextCommit} {x : String} :
    x ∈ idsOf l ↔ ∃ c ∈ l, c.id = x := by
  unfold idsOf
  simp [List.mem_map]

/-- Growing the visited set can only shrink the unvisited-key filter. -/
theorem count_filter_cons_le (l : List String) (v : List String) (id : String) :
    (l.filter (fun x => decide (¬ x ∈ id :: v))).length ≤
      (l.filter (fun x => decide (¬ x ∈ v))).length := by
  induction l with
  | nil => simp
  | cons a t ih =>
    by_cases hv : a ∈ v
    · have h1 : (decide (¬ a ∈ id :: v)) = false := by simp [hv]
      have h2 : (decide (¬ a ∈ v)) = false := by simp [hv]
      simp only [List.filter_cons, h1, h2]
      exact ih
    · by_cases ha : a = id
      · have h1 : (decide (¬ a ∈ id :: v)) = false := by simp [ha]
        have h2 : (decide (¬ a ∈ v)) = true := by simp [hv]
        simp only [List.filter_cons, h1, h2, List.length_cons]
        exact Nat.le_succ_of_le ih
      · have h1 : (decide (¬ a ∈ id :: v)) = true := by simp [List.mem_cons, ha, hv]
        have h2 : (decide (¬ a ∈ v)) = true := by simp [hv]
        simp only [List.filter_cons, h1, h2, List.length_cons]
        exact Nat.succ_le_succ ih

/-- Visiting a fresh member strictly decreases the unvisited-key filter. -/
theorem count_filter_cons_lt (l v : List String) (id : String)
    (hmem : id ∈ l) (hnv : ¬ id ∈ v) :
    (l.filter (fun x => decide (¬ x ∈ id :: v))).length <
      (l.filter (fun x => decide (¬ x ∈ v))).length := by
  induction l with
  | nil => cases hmem
  | cons a t ih =>
    by_cases ha : a = id
    · subst ha
      have h1 : (decide (¬ a ∈ a :: v)) = false := by simp
      have h2 : (decide (¬ a ∈ v)) = true := by simp [hnv]
      simp only [List.filter_cons, h1, h2, List.length_cons]
      exact Nat.lt_succ_of_le (count_filter_cons_le t v a)
    · have hm2 : id ∈ t := by
        rcases List.mem_cons.mp hmem with h | h
        · exact absurd h.symm ha
        · exact h
      by_cases hv : a ∈ v
      · have h1 : (decide (¬ a ∈ id :: v)) = false := by simp [hv]
        have h2 : (decide (¬ a ∈ v)) = false := by simp [hv]
        simp only [List.filter_cons, h1, h2]
        exact ih hm2
      · have h1 : (decide (¬ a ∈ id :: v)) = true := by simp [List.mem_cons, ha, hv]
        have h2 : (decide (¬ a ∈ v)) = true := by simp [hv]
        simp only [List.filter_cons, h1, h2, List.length_cons]
        exact Nat.succ_lt_succ (ih hm2)

/-- Appending one commit whose key-parent is already listed preserves the
parent-before-child order. -/
theorem orderedWrt_append_one {commits s : List ContextCommit} {c : ContextCommit}
    (hs : OrderedWrt commits s)
    (hc : ∀ p, c.parent_id = some p → isKey commits p = true → p ∈ idsOf s) :
    OrderedWrt commits (s ++ [c]) := by
  intro l1 d l2 heq p hp hk
  rcases List.append_eq_append_iff.mp heq with ⟨a2, ha1, ha2⟩ | ⟨c2, hc1, hc2⟩
  · cases a2 with
    | nil =>
      rw [List.append_nil] at ha1
      have hd : c = d ∧ ([] : List ContextCommit) = l2 := by simpa using ha2
      obtain ⟨rfl, _⟩ := hd
      obtain ⟨pc, hpc1, hpc2⟩ := mem_idsOf.mp (hc p hp hk)
      exact ⟨pc, ha1 ▸ hpc1, hpc2⟩
    | cons x xs => simp at ha2
  · cases c2 with
    | nil =>
      rw [List.append_nil] at hc1
      have hd : d = c ∧ l2 = ([] : List ContextCommit) := by simpa using hc2
      obtain ⟨rfl, _⟩ := hd
      obtain ⟨pc, hpc1, hpc2⟩ := mem_idsOf.mp (hc p hp hk)
      exact ⟨pc, hc1 ▸ hpc1, hpc2⟩
    | cons x xs =>
      have hd : d = x ∧ l2 = xs ++ [c] := by simpa using hc2
      obtain ⟨rfl, _⟩ := hd
      exact hs l1 d xs (by rw [hc1]) p hp hk

/-- Shared postcondition for every branch of visit that pushes the current
commit without recursing. -/
theorem visit_post_push (commits : List ContextCommit) {v E : List String} {id : String}
    {c : ContextCommit} {s : List ContextCommit}
    (hcid : c.id = id) (hcmg : mapGet commits id = some c)
    (hclosed : ∀ x, isKey commits x = true → x ∈ v → x ∈ idsOf s ∨ x ∈ E)
    (hord : OrderedWrt commits s)
    (hvals : ∀ d ∈ s, mapGet commits d.id = some d)
    (hpar : ∀ q, c.parent_id = some q → isKey commits q = true → q ∈ idsOf s) :
    (∃ t, s ++ [c] = s ++ t) ∧
    OrderedWrt commits (s ++ [c]) ∧
    (∀ x, isKey commits x = true → x ∈ id :: v → x ∈ idsOf (s ++ [c]) ∨ x ∈ E) ∧
    (∀ x, x ∈ v → x ∈ id :: v) ∧
    (isKey commits id = true → id ∈ idsOf (s ++ [c])) ∧
    (∀ d ∈ s ++ [c], mapGet commits d.id = some d) := by
  have hcin : id ∈ idsOf (s ++ [c]) := by
    rw [idsOf_append]
    refine List.mem_append.mpr (Or.inr ?_)
    rw [← hcid]
    exact List.mem_map_of_mem _ (List.mem_singleton_self c)
  refine ⟨⟨[c], rfl⟩, orderedWrt_append_one hord hpar, ?_, ?_, fun _ => hcin, ?_⟩
  · intro x hk hx
    rcases List.mem_cons.mp hx with rfl | hx2
    · exact Or.inl hcin
    · rcases hclosed x hk hx2 with h | h
      · refine Or.inl ?_
        rw [idsOf_append]
        exact List.mem_append.mpr (Or.inl h)
      · exact Or.inr h
  · intro x hx
    exact List.mem_cons_of_mem _ hx
  · intro d hd
    rcases List.mem_append.mp hd with h | h
    · exact hvals d h
    · rw [List.mem_singleton.mp h, hcid]
      exact hcmg

/-- Full specification of the dependency walk, proved by induction on fuel
under an acyclicity rank for the parent edges: the sorted list only grows,
stays parent-before-child ordered, is closed over the visited keys up to the
in-progress stack E, always receives the visited key itself when it is a key,
and contains only map values. -/
theorem visit_spec (commits : List ContextCommit) (rank : String → Nat)
    (hrank : ∀ c ∈ commits, ∀ p, c.parent_id = some p → isKey commits p = true →
      rank p < rank c.id)
    (hne : ∀ c ∈ commits, c.id ≠ "") :
    ∀ fuel : Nat, ∀ id : String, ∀ v E : List String, ∀ s : List ContextCommit,
      unvisitedKeyCount commits v < fuel →
      (∀ x, isKey commits x = true → x ∈ v → x ∈ idsOf s ∨ x ∈ E) →
      (∀ x ∈ E, rank id < rank x) →
      (¬ id ∈ E) →
      OrderedWrt commits s →
      (∀ c ∈ s, mapGet commits c.id = some c) →
      (∃ t, (visit commits fuel v s id).2 = s ++ t) ∧
      OrderedWrt commits (visit commits fuel v s id).2 ∧
      (∀ x, isKey commits x = true → x ∈ (visit commits fuel v s id).1 →
        x ∈ idsOf (visit commits fuel v s id).2 ∨ x ∈ E) ∧
      (∀ x, x ∈ v → x ∈ (visit commits fuel v s id).1) ∧
      (isKey commits id = true → id ∈ idsOf (visit commits fuel v s id).2) ∧
      (∀ c ∈ (visit commits fuel v s id).2, mapGet commits c.id = some c) := by
  intro fuel
  induction fuel with
  | zero =>
    intro id v E s hfuel
    exact absurd hfuel (Nat.not_lt_zero _)
  | succ fuel ih =>
    intro id v E s hfuel hclosed hE hidE hord hvals
    cases hin : v.contains id with
    | true =>
      have hmem : id ∈ v := (contains_iff_mem v id).mp hin
      have hre : visit commits (fuel + 1) v s id = (v, s) := by
        simp [visit, hmem]
      rw [hre]
      refine ⟨⟨[], by simp⟩, hord, fun x hk hx => hclosed x hk hx, fun x hx => hx, ?_, hvals⟩
      intro hk
      rcases hclosed id hk ((contains_iff_mem v id).mp hin) with h | h
      · exact h
      · exact absurd h hidE
    | false =>
      have hnv : ¬ id ∈ v := fun hm => by
        rw [(contains_iff_mem v id).mpr hm] at hin
        cases hin
      cases hmg : mapGet commits id with
      | none =>
        have hre : visit commits (fuel + 1) v s id = (id :: v, s) := by
          simp [visit, hnv, hmg]
        rw [hre]
        refine ⟨⟨[], by simp⟩, hord, ?_, fun x hx => List.mem_cons_of_mem _ hx, ?_, hvals⟩
        · intro x hk hx
          rcases List.mem_cons.mp hx with rfl | hx2
          · rw [isKey, hmg] at hk
            cases hk
          · exact hclosed x hk hx2
        · intro hk
          rw [isKey, hmg] at hk
          cases hk
      | some c =>
        have hcid : c.id = id := (mapGet_some_spec hmg).1
        have hcmem : c ∈ commits := (mapGet_some_spec hmg).2
        cases hpar : c.parent_id with
        | none =>
          have hre : visit commits (fuel + 1) v s id = (id :: v, s ++ [c]) := by
            simp [visit, hnv, hmg, hpar]
          rw [hre]
          exact visit_post_push commits hcid hmg hclosed hord hvals
            (fun q hq _ => by rw [hpar] at hq; cases hq)
        | some p =>
          by_cases hpe : p = ""
          · have hre : visit commits (fuel + 1) v s id = (id :: v, s ++ [c]) := by
              simp [visit, hnv, hmg, hpar, hpe]
            rw [hre]
            refine visit_post_push commits hcid hmg hclosed hord hvals ?_
            intro q hq hk
            rw [hpar] at hq
            injection hq with hq2
            rw [← hq2, hpe] at hk
            rw [isKey_empty_false hne] at hk
            cases hk
          · cases hkp : isKey commits p with
            | false =>
              have hre : visit commits (fuel + 1) v s id = (id :: v, s ++ [c]) := by
                simp [visit, hnv, hmg, hpar, hpe, hkp]
              rw [hre]
              refine visit_post_push commits hcid hmg hclosed hord hvals ?_
              intro q hq hk
              rw [hpar] at hq
              injection hq with hq2
              rw [← hq2, hkp] at hk
              cases hk
            | true =>
              have hre : visit commits (fuel + 1) v s id =
                  ((visit commits fuel (id :: v) s p).1,
                   (visit commits fuel (id :: v) s p).2 ++ [c]) := by
                simp [visit, hnv, hmg, hpar, hpe, hkp]
              have hrankp : rank p < rank id := by
                have h := hrank c hcmem p hpar hkp
                rw [hcid] at h
                exact h
              have hfuel2 : unvisitedKeyCount commits (id :: v) < fuel := by
                have hlt := count_filter_cons_lt (commits.map (fun x => x.id)) v id
                  (by rw [← hcid]; exact List.mem_map_of_mem _ hcmem) hnv
                have hf1 : unvisitedKeyCount commits (id :: v) <
                    unvisitedKeyCount commits v := hlt
                omega
              have hclosed2 : ∀ x, isKey commits x = true → x ∈ id :: v →
                  x ∈ idsOf s ∨ x ∈ id :: E := by
                intro x hk hx
                rcases List.mem_cons.mp hx with rfl | hx2
                · exact Or.inr (List.mem_cons_self _ _)
                · rcases hclosed x hk hx2 with h | h
                  · exact Or.inl h
                  · exact Or.inr (List.mem_cons_of_mem _ h)
              have hE2 : ∀ x ∈ id :: E, rank p < rank x := by
                intro x hx
                rcases List.mem_cons.mp hx with rfl | hx2
                · exact hrankp
                · exact Nat.lt_trans hrankp (hE x hx2)
              have hpE2 : ¬ p ∈ id :: E := by
                intro hx
                rcases List.mem_cons.mp hx with rfl | hx2
                · exact Nat.lt_irrefl _ hrankp
                · exact Nat.lt_irrefl _ (Nat.lt_trans hrankp (hE p hx2))
              obtain ⟨⟨t, ht⟩, hord2, hclosed3, hmono2, hpin2, hvals2⟩ :=
                ih p (id :: v) (id :: E) s hfuel2 hclosed2 hE2 hpE2 hord hvals
              rw [hre]
              have hcin2 : id ∈ idsOf ((visit commits fuel (id :: v) s p).2 ++ [c]) := by
                rw [idsOf_append]
                refine List.mem_append.mpr (Or.inr ?_)
                rw [← hcid]
                exact List.mem_map_of_mem _ (List.mem_singleton_self c)
              refine ⟨⟨t ++ [c], by rw [ht, List.append_assoc]⟩, ?_, ?_, ?_, fun _ => hcin2, ?_⟩
              · refine orderedWrt_append_one hord2 ?_
                intro q hq hk
                rw [hpar] at hq
                injection hq with hq2
                rw [← hq2]
                exact hpin2 hkp
              · intro x hk hx
                rcases hclosed3 x hk hx with h | h
                · refine Or.inl ?_
                  rw [idsOf_append]
                  exact List.mem_append.mpr (Or.inl h)
                · rcases List.mem_cons.mp h with rfl | h2
                  · exact Or.inl hcin2
                  · exact Or.inr h2
              · intro x hx
                exact hmono2 x (List.mem_cons_of_mem _ hx)
              · intro d hd
                rcases List.mem_append.mp hd with h | h
                · exact hvals2 d h
                · rw [List.mem_singleton.mp h, hcid]
                  exact hmg

/-- The whole dependency sort is parent-before-child ordered relative to the
key set, and emits only map values. -/
theorem sort_spec (commits : List ContextCommit) (rank : String → Nat)
    (hrank : ∀ c ∈ commits, ∀ p, c.parent_id = some p → isKey commits p = true →
      rank p < rank c.id)
    (hne : ∀ c ∈ commits, c.id ≠ "") :
    OrderedWrt commits (sortCommitsByDependencies commits) ∧
    ∀ c ∈ sortCommitsByDependencies commits, mapGet commits c.id = some c := by
  suffices h : ∀ l : List ContextCommit, ∀ v : List String, ∀ s : List ContextCommit,
      (∀ x, isKey commits x = true → x ∈ v → x ∈ idsOf s) →
      OrderedWrt commits s →
      (∀ c ∈ s, mapGet commits c.id = some c) →
      OrderedWrt commits
        (l.foldl (fun acc c => visit commits (commits.length + 1) acc.1 acc.2 c.id) (v, s)).2 ∧
      ∀ c ∈ (l.foldl (fun acc c => visit commits (commits.length + 1) acc.1 acc.2 c.id)
          (v, s)).2, mapGet commits c.id = some c by
    have hemp : OrderedWrt commits [] := by
      intro l1 c l2 heq
      exfalso
      cases l1 <;> simp at heq
    exact h commits [] [] (fun x _ hx => absurd hx (List.not_mem_nil x)) hemp
      (fun c hc => absurd hc (List.not_mem_nil c))
  intro l
  induction l with
  | nil =>
    intro v s _ h2 h3
    exact ⟨h2, h3⟩
  | cons c rest ih =>
    intro v s h1 h2 h3
    rw [List.foldl_cons]
    have hfuel : unvisitedKeyCount commits v < commits.length + 1 := by
      have hle := List.length_filter_le (fun x => decide (¬ x ∈ v)) (commits.map (fun x => x.id))
      have hlen : (commits.map (fun x => x.id)).length = commits.length := List.length_map _ _
      unfold unvisitedKeyCount
      omega
    obtain ⟨_, hord2, hclosed2, _, _, hvals2⟩ :=
      visit_spec commits rank hrank hne (commits.length + 1) c.id v [] s hfuel
        (fun x hk hx => Or.inl (h1 x hk hx))
        (fun x hx => absurd hx (List.not_mem_nil x))
        (List.not_mem_nil c.id) h2 h3
    exact ih (visit commits (commits.length + 1) v s c.id).1
      (visit commits (commits.length + 1) v s c.id).2
      (fun x hk hx => (hclosed2 x hk hx).resolve_right (List.not_mem_nil x))
      hord2 hvals2

/-- Under an acyclicity rank and non-empty ids, the sorted list satisfies the
claim's parent-before-child property on itself. -/
theorem sorted_parentBeforeChild (commits : List ContextCommit) (rank : String → Nat)
    (hrank : ∀ c ∈ commits, ∀ p, c.parent_id = some p → isKey commits p = true →
      rank p < rank c.id)
    (hne : ∀ c ∈ commits, c.id ≠ "") :
    ParentBeforeChild (sortCommitsByDependencies commits) := by
  obtain ⟨hord, hvals⟩ := sort_spec commits rank hrank hne
  intro l1 c l2 heq p hp hd
  obtain ⟨d, hdmem, hdid⟩ := hd
  have hmgd := hvals d hdmem
  rw [hdid] at hmgd
  have hkey : isKey commits p = true := by
    unfold isKey
    rw [hmgd]
    rfl
  exact hord l1 c l2 heq p hp hkey

/-- Relinking the remote does not change the unpushed deltas. -/
theorem unpushed_setRemote_frame (st : ErgoDir) (rid : String) :
    getUnpushedCommits (setRemoteRepository st rid) = getUnpushedCommits st ∧
    getUnpushedObjects (setRemoteRepository st rid) = getUnpushedObjects st := by
  unfold setRemoteRepository
  cases st.config with
  | none => exact ⟨rfl, rfl⟩
  | some cfg => exact ⟨rfl, rfl⟩

/-- Trace analysis of the push body: objects always precede commits, and any
commit payload sent is exactly the dependency-sorted unpushed delta. -/
theorem pushCore_order (S : ErgoDir) (pre : List RemoteCall) (st2 : ErgoDir)
    (out : PushOutcome)
    (hprec : pre = [] ∨ pre = [RemoteCall.createRepository])
    (h : pushCore S pre = (st2, Except.ok out)) :
    objectsBeforeCommits out.trace = true ∧
    ∀ sent, RemoteCall.pushCommits sent ∈ out.trace →
      sent = sortCommitsByDependencies (getUnpushedCommits S) := by
  have h2 := congrArg Prod.snd h
  by_cases hC : (getUnpushedCommits S).isEmpty = true <;>
    by_cases hO : (getUnpushedObjects S).isEmpty = true
  · simp only [pushCore, hC, hO, Bool.and_self, if_true] at h2
    rw [Except.ok.injEq] at h2
    subst h2
    rcases hprec with rfl | rfl
    · exact ⟨rfl, fun sent hs => absurd hs (List.not_mem_nil _)⟩
    · refine ⟨rfl, fun sent hs => ?_⟩
      simp at hs
  · simp only [pushCore, hC, hO, Bool.and_false, Bool.false_eq_true, if_false] at h2
    rw [Except.ok.injEq] at h2
    subst h2
    rcases hprec with rfl | rfl
    · refine ⟨rfl, fun sent hs => ?_⟩
      simp at hs
    · refine ⟨rfl, fun sent hs => ?_⟩
      simp at hs
  · simp only [pushCore, hC, hO, Bool.false_and, Bool.false_eq_true, if_false] at h2
    rw [Except.ok.injEq] at h2
    subst h2
    rcases hprec with rfl | rfl
    · refine ⟨rfl, fun sent hs => ?_⟩
      simp at hs
      exact hs
    · refine ⟨rfl, fun sent hs => ?_⟩
      simp at hs
      exact hs
  · simp only [pushCore, hC, hO, Bool.false_and, Bool.false_eq_true, if_false] at h2
    rw [Except.ok.injEq] at h2
    subst h2
    rcases hprec with rfl | rfl
    · refine ⟨rfl, fun sent hs => ?_⟩
      simp at hs
      exact hs
    · refine ⟨rfl, fun sent hs => ?_⟩
      simp at hs
      exact hs

/-- C2: in every successful push, all objects are pushed before any commits,
and the commit list sent to the remote is the dependency-sorted unpushed
delta, in parent-before-child order (the rank hypothesis encodes the data
model's invariant that parent edges form a DAG; the id hypothesis that commit
ids are non-empty digests). -/
theorem C2_push_order (st : ErgoDir) (rid : String) (rank : String → Nat) (st2 : ErgoDir)
    (out : PushOutcome)
    (hpush : pushRepository st rid = (st2, Except.ok out))
    (hrank : ∀ c ∈ getUnpushedCommits st, ∀ p, c.parent_id = some p →
      isKey (getUnpushedCommits st) p = true → rank p < rank c.id)
    (hne : ∀ c ∈ getUnpushedCommits st, c.id ≠ "") :
    objectsBeforeCommits out.trace = true ∧
    ∀ sent, RemoteCall.pushCommits sent ∈ out.trace →
      sent = sortCommitsByDependencies (getUnpushedCommits st) ∧ ParentBeforeChild sent := by
  have hpbc : ParentBeforeChild (sortCommitsByDependencies (getUnpushedCommits st)) :=
    sorted_parentBeforeChild (getUnpushedCommits st) rank hrank hne
  cases hlink : getRemoteRepositoryId st with
  | some r =>
    have hpr : pushCore st [] = (st2, Except.ok out) := by
      rw [← hpush]
      simp [pushRepository, hlink]
    obtain ⟨h1, h2⟩ := pushCore_order st [] st2 out (Or.inl rfl) hpr
    exact ⟨h1, fun sent hs => ⟨h2 sent hs, (h2 sent hs) ▸ hpbc⟩⟩
  | none =>
    cases hcfg : st.config with
    | none =>
      rw [pushRepository, hlink] at hpush
      simp only [hcfg] at hpush
      simp at hpush
    | some cfg =>
      have hpr : pushCore (setRemoteRepository st rid) [RemoteCall.createRepository] =
          (st2, Except.ok out) := by
        rw [← hpush]
        simp [pushRepository, hlink, hcfg]
      obtain ⟨hfr1, _⟩ := unpushed_setRemote_frame st rid
      obtain ⟨h1, h2⟩ := pushCore_order (setRemoteRepository st rid)
        [RemoteCall.createRepository] st2 out (Or.inr rfl) hpr
      rw [hfr1] at h2
      exact ⟨h1, fun sent hs => ⟨h2 sent hs, (h2 sent hs) ▸ hpbc⟩⟩

/-- Witness for C2 at the concrete pushFixture repository whose commit store
lists the child before its parent. -/
theorem C2_push_order_witness :
    objectsBeforeCommits pushOut1.trace = true ∧
    ∀ sent, RemoteCall.pushCommits sent ∈ pushOut1.trace →
      sent = sortCommitsByDependencies (getUnpushedCommits pushFixture) ∧
      ParentBeforeChild sent :=
  C2_push_order pushFixture "N" pushRank pushFixture1 pushOut1 (by decide)
    (by
      intro c hc p hp hk
      have hlist : getUnpushedCommits pushFixture =
          [fxCommit "c2" (some "c1"), fxCommit "c1" none] := by decide
      rw [hlist] at hc
      have hc2 : c = fxCommit "c2" (some "c1") ∨ c = fxCommit "c1" none := by
        simpa using hc
      rcases hc2 with rfl | rfl
      · have hz : (fxCommit "c2" (some "c1")).parent_id = some "c1" := rfl
        rw [hz] at hp
        injection hp with hp2
        rw [← hp2]
        decide
      · have hz : (fxCommit "c1" none).parent_id = none := rfl
        rw [hz] at hp
        exact Option.noConfusion hp)
    (by decide)

end ErgoSum
